import Mathlib

/-!
Verification of the hierarchical-clustering / dashboard repository.

The repository's clustering "core" (standardization, pairwise distances,
Ward agglomerative linkage, threshold cut) is invoked through library calls
(`sklearn.preprocessing.StandardScaler`, `scipy.spatial.distance.pdist`,
`scipy.cluster.hierarchy.linkage` / `fcluster`); the library code itself is
not part of this repository, so those components are modelled from the
specification.  Components that do live in the repository
(`size_group` in `Checkpoint3/app.py`, `_count_hierarchy_levels` in
`Checkpoint2/clean_hierarchical_data.py`, the `fillna`-with-column-mean
preprocessing of `create_dendrogram` in
`Checkpoint2/tcf_dashboard/src/tcf_strategic_dashboard.py`) are embedded
directly from the source.

All numeric computation is modelled over `ℚ`.  Where the Python code uses
Euclidean distances, the model records *squared* dissimilarities (squares of
the library's values): squaring is strictly monotone on nonnegative reals,
so ordering facts (minimum selection, merge-distance monotonicity,
threshold comparisons) transfer unchanged, while keeping every definition
exactly computable.
-/

namespace NetworkInfluence

/-! ## `size_group` from `src/Checkpoint3/app.py` (`generate_hierarchy_treemap`)

```python
def size_group(size):
    if size >= 15:
        return "Big (>=15 people)"
    elif size >= 8:
        return "Medium (8-14 people)"
    else:
        return "Small (3-7 people)"
```
-/

def size_group (size : ℚ) : String :=
  if size ≥ 15 then "Big (>=15 people)"
  else if size ≥ 8 then "Medium (8-14 people)"
  else "Small (3-7 people)"

/-! ## Feature standardization

Modelled from the spec: `StandardScaler.fit_transform` (library code, not in
the repository).  §4.1: for each column, compute the mean `μ_d` and the
population standard deviation `σ_d`; output `(x[i][d] − μ_d) / σ_d`, and `0`
for every entry of a constant column (`σ_d = 0`).  Since `√` is not rational,
the standard deviation is passed as an explicit argument `σ`; the theorems
assume `σ d ≥ 0` and `(σ d)^2 = colVariance x d`, which characterises the
population standard deviation exactly. -/

/-- Mean of column `d` of an `N × D` matrix. -/
def colMean (N D : ℕ) (x : Fin N → Fin D → ℚ) (d : Fin D) : ℚ :=
  (∑ i, x i d) / N

/-- Population variance of column `d` (denominator `N`, as used by
`StandardScaler`). -/
def colVariance (N D : ℕ) (x : Fin N → Fin D → ℚ) (d : Fin D) : ℚ :=
  (∑ i, (x i d - colMean N D x d) ^ 2) / N

/-- Modelled from the spec: `StandardScaler.fit_transform` with the column
standard deviations supplied as `σ`.  Constant columns (`σ d = 0`) are mapped
to `0`. -/
def fit_transform (N D : ℕ) (x : Fin N → Fin D → ℚ) (σ : Fin D → ℚ) :
    Fin N → Fin D → ℚ :=
  fun i d => if σ d = 0 then 0 else (x i d - colMean N D x d) / σ d

/-- Sum of deviations from the column mean vanishes (for a nonempty matrix). -/
lemma sum_dev_eq_zero (N D : ℕ) (hN : 0 < N) (x : Fin N → Fin D → ℚ) (d : Fin D) :
    ∑ i, (x i d - colMean N D x d) = 0 := by
  have hcast : (N : ℚ) ≠ 0 := Nat.cast_ne_zero.mpr hN.ne'
  rw [Finset.sum_sub_distrib, Finset.sum_const, Finset.card_univ, Fintype.card_fin,
    nsmul_eq_mul, colMean]
  field_simp

/-- A column has zero variance exactly when it is constant. -/
lemma colVariance_eq_zero_iff (N D : ℕ) (hN : 0 < N) (x : Fin N → Fin D → ℚ) (d : Fin D) :
    colVariance N D x d = 0 ↔ ∀ i j : Fin N, x i d = x j d := by
  have hcast : (0 : ℚ) < (N : ℚ) := by exact_mod_cast hN
  unfold colVariance
  rw [div_eq_zero_iff]
  constructor
  · rintro (hsum | hbad)
    · have hz : ∀ i ∈ (Finset.univ : Finset (Fin N)), (x i d - colMean N D x d) ^ 2 = 0 := by
        refine (Finset.sum_eq_zero_iff_of_nonneg ?_).mp hsum
        intro i _
        positivity
      intro i j
      have hi := (pow_eq_zero_iff (by norm_num : (2:ℕ) ≠ 0)).mp (hz i (Finset.mem_univ i))
      have hj := (pow_eq_zero_iff (by norm_num : (2:ℕ) ≠ 0)).mp (hz j (Finset.mem_univ j))
      have hi' : x i d = colMean N D x d := by linarith [hi]
      have hj' : x j d = colMean N D x d := by linarith [hj]
      rw [hi', hj']
    · exact absurd hbad hcast.ne'
  · intro hconst
    left
    have hmean : ∀ i : Fin N, x i d = colMean N D x d := by
      intro i
      have h0 : Fin N := ⟨0, hN⟩
      have : colMean N D x d = x i d := by
        unfold colMean
        rw [Finset.sum_congr rfl (fun j _ => hconst j i), Finset.sum_const,
          Finset.card_univ, Fintype.card_fin, nsmul_eq_mul]
        field_simp
      exact this.symm
    refine Finset.sum_eq_zero ?_
    intro i _
    rw [sub_eq_zero.mpr (hmean i)]
    ring

/-- C2: standardization returns a matrix of the same shape with
`z[i][d] = (x[i][d] − μ_d)/σ_d` whenever the column standard deviation
`σ_d` is nonzero, returns `0` throughout every constant column
(`σ_d = 0` exactly for constant columns), and every non-constant column of
the output has mean exactly `0` and (population) variance exactly `1`
(equivalently, standard deviation `1`; the model computes in exact rational
arithmetic, so the spec's floating-point tolerance is met exactly). -/
theorem C2_standardization (N D : ℕ) (hN : 0 < N) (x : Fin N → Fin D → ℚ)
    (σ : Fin D → ℚ) (hσ0 : ∀ d, 0 ≤ σ d)
    (hσ : ∀ d, (σ d) ^ 2 = colVariance N D x d) :
    (∀ i d, σ d ≠ 0 →
        fit_transform N D x σ i d = (x i d - colMean N D x d) / σ d) ∧
    (∀ d, σ d = 0 ↔ ∀ i j : Fin N, x i d = x j d) ∧
    (∀ i d, σ d = 0 → fit_transform N D x σ i d = 0) ∧
    (∀ d, σ d ≠ 0 →
        colMean N D (fit_transform N D x σ) d = 0 ∧
        colVariance N D (fit_transform N D x σ) d = 1) := by
  have hsig_zero : ∀ d, σ d = 0 ↔ colVariance N D x d = 0 := by
    intro d
    constructor
    · intro h
      rw [← hσ d, h]
      ring
    · intro h
      have h2 : (σ d) ^ 2 = 0 := by rw [hσ d, h]
      exact (pow_eq_zero_iff (by norm_num : (2:ℕ) ≠ 0)).mp h2
  refine ⟨?_, ?_, ?_, ?_⟩
  · intro i d hd
    simp [fit_transform, hd]
  · intro d
    rw [hsig_zero d]
    exact colVariance_eq_zero_iff N D hN x d
  · intro i d hd
    simp [fit_transform, hd]
  · intro d hd
    have hmean0 : colMean N D (fit_transform N D x σ) d = 0 := by
      unfold colMean
      have hsum : ∑ i, fit_transform N D x σ i d = 0 := by
        have hrw : ∑ i, fit_transform N D x σ i d
            = (∑ i, (x i d - colMean N D x d)) / σ d := by
          rw [Finset.sum_div]
          refine Finset.sum_congr rfl ?_
          intro i _
          simp [fit_transform, hd]
        rw [hrw, sum_dev_eq_zero N D hN, zero_div]
      rw [hsum, zero_div]
    refine ⟨hmean0, ?_⟩
    unfold colVariance
    rw [hmean0]
    have hcast : (N : ℚ) ≠ 0 := Nat.cast_ne_zero.mpr hN.ne'
    have hrw : ∑ i, (fit_transform N D x σ i d - 0) ^ 2
        = (∑ i, (x i d - colMean N D x d) ^ 2) / (σ d) ^ 2 := by
      rw [Finset.sum_div]
      refine Finset.sum_congr rfl ?_
      intro i _
      rw [sub_zero]
      simp only [fit_transform, if_neg hd]
      rw [div_pow]
    rw [hrw]
    have hS : ∑ i, (x i d - colMean N D x d) ^ 2 = (σ d) ^ 2 * N := by
      have := hσ d
      unfold colVariance at this
      field_simp at this
      linarith [this]
    rw [hS]
    field_simp

/-- Concrete instance of `C2_standardization`: the column `(0, 2)` has mean
`1` and population standard deviation `1`; its standardization has mean `0`
and variance `1`. -/
theorem C2_standardization_witness :
    colMean 2 1 (fit_transform 2 1 (fun i _ => if i = 0 then 0 else 2) (fun _ => 1)) 0 = 0 ∧
    colVariance 2 1 (fit_transform 2 1 (fun i _ => if i = 0 then 0 else 2) (fun _ => 1)) 0 = 1 := by
  refine (C2_standardization 2 1 (by norm_num) (fun i _ => if i = 0 then 0 else 2)
    (fun _ => 1) (fun _ => by norm_num) ?_).2.2.2 0 (by norm_num)
  intro d
  norm_num [colVariance, colMean, Fin.sum_univ_two]

/-- C10: `size_group` is total and partitions all numeric sizes into exactly
three labels: sizes `≥ 15` map to `"Big (>=15 people)"`, sizes in `[8, 15)`
map to `"Medium (8-14 people)"`, and every size `< 8` — including `0`, `1`
and `2`, below the label's stated lower bound — maps to
`"Small (3-7 people)"`; every size receives exactly one of the three
labels. -/
theorem C10_size_group (s : ℚ) :
    (15 ≤ s → size_group s = "Big (>=15 people)") ∧
    (8 ≤ s → s < 15 → size_group s = "Medium (8-14 people)") ∧
    (s < 8 → size_group s = "Small (3-7 people)") ∧
    (size_group 0 = "Small (3-7 people)" ∧ size_group 1 = "Small (3-7 people)" ∧
      size_group 2 = "Small (3-7 people)") ∧
    (size_group s = "Big (>=15 people)" ∨ size_group s = "Medium (8-14 people)" ∨
      size_group s = "Small (3-7 people)") := by
  refine ⟨?_, ?_, ?_, ⟨by decide, by decide, by decide⟩, ?_⟩
  · intro h
    simp [size_group, h]
  · intro h8 h15
    have : ¬ s ≥ 15 := by linarith
    simp [size_group, this, h8]
  · intro h
    have h15 : ¬ s ≥ 15 := by linarith
    have h8 : ¬ s ≥ 8 := by linarith
    simp [size_group, h15, h8]
  · unfold size_group
    by_cases h15 : s ≥ 15
    · simp [h15]
    · by_cases h8 : s ≥ 8
      · simp [h15, h8]
      · simp [h15, h8]

/-- Concrete instance of `C10_size_group`: a community of size 20 is labelled
big, size 10 medium, size 2 small. -/
theorem C10_size_group_witness :
    size_group 20 = "Big (>=15 people)" ∧ size_group 10 = "Medium (8-14 people)" ∧
    size_group 2 = "Small (3-7 people)" :=
  ⟨(C10_size_group 20).1 (by norm_num),
   (C10_size_group 10).2.1 (by norm_num) (by norm_num),
   (C10_size_group 2).2.2.1 (by norm_num)⟩

/-! ## Error taxonomy (spec §7) and the `create_dendrogram` preprocessing

`CoreError` is the spec's typed-error taxonomy.  The preprocessing of
`create_dendrogram` in
`src/Checkpoint2/tcf_dashboard/src/tcf_strategic_dashboard.py` is embedded
from the source:

```python
numeric_data = data[['population', 'gdp_per_capita']].copy()
numeric_data = numeric_data.fillna(numeric_data.mean())
```

i.e. every missing cell is replaced by the mean of the present values of its
column, and no error is raised. -/

inductive CoreError where
  | insufficientData
  | degenerateInput
  | invalidThreshold
deriving DecidableEq, Repr

/-- Mean over the present (non-missing) values of column `d`, as computed by
pandas `DataFrame.mean()` (missing entries are skipped). -/
def colMeanPresent (N D : ℕ) (t : Fin N → Fin D → Option ℚ) (d : Fin D) : ℚ :=
  (∑ i, (t i d).getD 0) / ((Finset.univ.filter fun i : Fin N => (t i d).isSome).card)

/-- `fillna(numeric_data.mean())`: present cells are kept, missing cells get
their column's present-value mean. -/
def fillna_mean (N D : ℕ) (t : Fin N → Fin D → Option ℚ) : Fin N → Fin D → ℚ :=
  fun i d => (t i d).getD (colMeanPresent N D t d)

/-- The numeric preprocessing performed by `create_dendrogram` before
standardization and linkage.  It never raises: missing values are silently
imputed. -/
def create_dendrogram_prep (N D : ℕ) (t : Fin N → Fin D → Option ℚ) :
    Except CoreError (Fin N → Fin D → ℚ) :=
  Except.ok (fillna_mean N D t)

/-- The table used to refute C6: column `(1, missing, 3)`. -/
def c6Table : Fin 3 → Fin 1 → Option ℚ :=
  fun i _ => if i = 0 then some 1 else if i = 1 then none else some 3

/-- C6 counterexample: the table `(1, missing, 3)` contains a missing value,
yet `create_dendrogram`'s preprocessing raises no typed error; it silently
replaces the missing cell with the column mean `2`. -/
theorem C6_counterexample :
    c6Table 1 0 = none ∧
    (∀ e : CoreError, create_dendrogram_prep 3 1 c6Table ≠ Except.error e) ∧
    fillna_mean 3 1 c6Table 1 0 = 2 := by
  refine ⟨by decide, ?_, ?_⟩
  · intro e h
    simp [create_dendrogram_prep] at h
  · have hcard : ((Finset.univ.filter fun i : Fin 3 => (c6Table i 0).isSome).card : ℚ) = 2 := by
      norm_num [show (Finset.univ.filter fun i : Fin 3 => (c6Table i 0).isSome).card = 2 by decide]
    have h00 : c6Table 0 0 = some 1 := by decide
    have h10 : c6Table 1 0 = none := by decide
    have h20 : c6Table 2 0 = some 3 := by decide
    simp only [fillna_mean, colMeanPresent, h10, Option.getD_none, Fin.sum_univ_three,
      h00, h20, Option.getD_some, hcard]
    norm_num

/-- C6 amended: the clustering entry point `create_dendrogram` does not fail
fast on missing numeric values; it propagates no error and silently replaces
each missing cell by the mean of its column's present values, leaving
present cells unchanged. -/
theorem C6_fillna_imputes (N D : ℕ) (t : Fin N → Fin D → Option ℚ) :
    create_dendrogram_prep N D t = Except.ok (fillna_mean N D t) ∧
    (∀ i d (v : ℚ), t i d = some v → fillna_mean N D t i d = v) ∧
    (∀ i d, t i d = none → fillna_mean N D t i d = colMeanPresent N D t d) := by
  refine ⟨rfl, ?_, ?_⟩
  · intro i d v hv
    simp [fillna_mean, hv]
  · intro i d hv
    simp [fillna_mean, hv]

/-- Concrete instance of `C6_fillna_imputes` on the counterexample table. -/
theorem C6_fillna_imputes_witness :
    fillna_mean 3 1 c6Table 1 0 = colMeanPresent 3 1 c6Table 0 :=
  (C6_fillna_imputes 3 1 c6Table).2.2 1 0 (by decide)

/-! ## Agglomerative linkage with Ward's criterion

Modelled from the spec: `scipy.cluster.hierarchy.linkage(·, method='ward')`
(library code, not in the repository).  §4.3: start from `N` singleton
clusters (identifiers `0 … N−1`, each later merge creating identifier
`N, N+1, …`), repeatedly merge the pair of clusters at minimal dissimilarity
(ties broken towards the lowest, earliest-created identifiers, recorded in
increasing identifier order), record `(left, right, dist, size)`, and update
the dissimilarities from the merged pair to every other cluster with the
Lance–Williams formula for Ward's method.  Dissimilarities are represented
as *squared* distances so that the update stays in `ℚ`; the ordering facts
(minimum choice, monotone merge distances) are unchanged by squaring. -/

/-- An active cluster: its identifier and how many original entities it
subsumes. -/
structure Cluster where
  id : ℕ
  size : ℕ
deriving DecidableEq, Repr

/-- One row of the MergeTree: the two merged identifiers, the dissimilarity
at which they merged, and the member count of the resulting cluster. -/
structure Merge where
  left : ℕ
  right : ℕ
  dist : ℚ
  size : ℕ
deriving DecidableEq, Repr

/-- State of the agglomeration: active clusters (kept in increasing
identifier order), the current dissimilarity function, and the next fresh
identifier. -/
structure LinkState where
  clusters : List Cluster
  dfun : ℕ → ℕ → ℚ
  nextId : ℕ

/-- Dissimilarity of a candidate pair. -/
def pairD (dm : ℕ → ℕ → ℚ) (p : Cluster × Cluster) : ℚ := dm p.1.id p.2.id

/-- All unordered candidate pairs, enumerated in the order induced by the
cluster list (lexicographic in identifiers once the list is sorted). -/
def pairsOf : List Cluster → List (Cluster × Cluster)
  | [] => []
  | c :: cs => (cs.map fun c' => (c, c')) ++ pairsOf cs

/-- Select the candidate pair of minimal dissimilarity; a strict comparison
keeps the first (lexicographically least) pair among ties. -/
def pickMin (dm : ℕ → ℕ → ℚ) : List (Cluster × Cluster) → Option (Cluster × Cluster)
  | [] => none
  | p :: ps => some (ps.foldl (fun best q => if pairD dm q < pairD dm best then q else best) p)

/-- Size of the active cluster with identifier `i` (0 if absent). -/
def clusterSize (cs : List Cluster) (i : ℕ) : ℕ :=
  ((cs.find? fun c => c.id == i).map Cluster.size).getD 0

/-- Lance–Williams update for Ward's method on squared dissimilarities:
the dissimilarity between the merger of `a, b` and the cluster with
identifier `k`. -/
def wardUpdate (st : LinkState) (a b : Cluster) (k : ℕ) : ℚ :=
  let sk : ℚ := clusterSize st.clusters k
  let sa : ℚ := a.size
  let sb : ℚ := b.size
  ((sk + sa) * st.dfun k a.id + (sk + sb) * st.dfun k b.id - sk * st.dfun a.id b.id)
    / (sa + sb + sk)

/-- The merge record produced by merging `a` and `b`. -/
def mergeOf (st : LinkState) (a b : Cluster) : Merge :=
  ⟨a.id, b.id, st.dfun a.id b.id, a.size + b.size⟩

/-- The state after merging `a` and `b`: both are retired, a fresh cluster
with the next identifier is appended, and dissimilarities to the new cluster
follow the Ward update. -/
def mergedState (st : LinkState) (a b : Cluster) : LinkState :=
  ⟨((st.clusters.erase a).erase b) ++ [⟨st.nextId, a.size + b.size⟩],
   fun i j =>
     if i = st.nextId then wardUpdate st a b j
     else if j = st.nextId then wardUpdate st a b i
     else st.dfun i j,
   st.nextId + 1⟩

/-- One agglomeration step: merge the minimal pair, if any. -/
def step (st : LinkState) : Option (Merge × LinkState) :=
  match pickMin st.dfun (pairsOf st.clusters) with
  | none => none
  | some (a, b) => some (mergeOf st a b, mergedState st a b)

/-- The state reached after one step (unchanged when no pair exists). -/
def stepState (st : LinkState) : LinkState :=
  match step st with
  | none => st
  | some (_, st') => st'

/-- Run `fuel` agglomeration steps, collecting the merge records. -/
def linkSteps : ℕ → LinkState → List Merge
  | 0, _ => []
  | fuel + 1, st =>
    match step st with
    | none => []
    | some (m, st') => m :: linkSteps fuel st'

/-- Initial state: `N` singletons with identifiers `0 … N−1`. -/
def initState (N : ℕ) (dm : ℕ → ℕ → ℚ) : LinkState :=
  ⟨(List.range N).map fun i => ⟨i, 1⟩, dm, N⟩

/-- Modelled from the spec: `linkage(dm, method='ward')` — the full
agglomeration, producing `N − 1` merge records. -/
def linkage (N : ℕ) (dm : ℕ → ℕ → ℚ) : List Merge :=
  linkSteps (N - 1) (initState N dm)

/-- The state after `k` agglomeration steps. -/
def stateAt (N : ℕ) (dm : ℕ → ℕ → ℚ) (k : ℕ) : LinkState :=
  stepState^[k] (initState N dm)

/-- The cluster list is strictly increasing in identifiers. -/
def SortedClusters (cs : List Cluster) : Prop :=
  cs.Pairwise fun c c' => c.id < c'.id

/-- Structural invariant of the agglomeration state. -/
def Inv (st : LinkState) : Prop :=
  SortedClusters st.clusters ∧
  (∀ c ∈ st.clusters, c.id < st.nextId) ∧
  (∀ c ∈ st.clusters, 1 ≤ c.size)

/-- Total member count of the active clusters. -/
def sizeSum (cs : List Cluster) : ℕ := (cs.map Cluster.size).sum

/-- Lexicographic order on candidate pairs by identifiers. -/
def LexLT (p q : Cluster × Cluster) : Prop :=
  p.1.id < q.1.id ∨ (p.1.id = q.1.id ∧ p.2.id < q.2.id)

lemma pairsOf_mem {cs : List Cluster} {p : Cluster × Cluster}
    (h : p ∈ pairsOf cs) : p.1 ∈ cs ∧ p.2 ∈ cs := by
  induction cs with
  | nil => simp [pairsOf] at h
  | cons c cs ih =>
    simp only [pairsOf, List.mem_append, List.mem_map] at h
    rcases h with ⟨c', hc', hp⟩ | h
    · subst hp
      exact ⟨List.mem_cons_self c cs, List.mem_cons_of_mem c hc'⟩
    · exact ⟨List.mem_cons_of_mem c (ih h).1, List.mem_cons_of_mem c (ih h).2⟩

lemma mem_pairsOf {cs : List Cluster} (hs : SortedClusters cs) {a b : Cluster}
    (ha : a ∈ cs) (hb : b ∈ cs) (hab : a.id < b.id) : (a, b) ∈ pairsOf cs := by
  induction cs with
  | nil => cases ha
  | cons c cs ih =>
    have hs' : SortedClusters cs := (List.pairwise_cons.mp hs).2
    have hhead : ∀ x ∈ cs, c.id < x.id := (List.pairwise_cons.mp hs).1
    simp only [pairsOf, List.mem_append, List.mem_map]
    rcases List.mem_cons.mp ha with rfl | ha'
    · left
      rcases List.mem_cons.mp hb with rfl | hb'
      · exact absurd hab (lt_irrefl _)
      · exact ⟨b, hb', rfl⟩
    · right
      rcases List.mem_cons.mp hb with rfl | hb'
      · exact absurd (hhead a ha') (by omega)
      · exact ih hs' ha' hb'

lemma pairsOf_fst_lt {cs : List Cluster} (hs : SortedClusters cs)
    {p : Cluster × Cluster} (h : p ∈ pairsOf cs) : p.1.id < p.2.id := by
  induction cs with
  | nil => simp [pairsOf] at h
  | cons c cs ih =>
    have hs' : SortedClusters cs := (List.pairwise_cons.mp hs).2
    have hhead : ∀ x ∈ cs, c.id < x.id := (List.pairwise_cons.mp hs).1
    simp only [pairsOf, List.mem_append, List.mem_map] at h
    rcases h with ⟨c', hc', hp⟩ | h
    · subst hp
      exact hhead c' hc'
    · exact ih hs' h

lemma pairsOf_ne_nil (c1 c2 : Cluster) (cs : List Cluster) :
    pairsOf (c1 :: c2 :: cs) ≠ [] := by
  simp [pairsOf]

lemma pairsOf_lex {cs : List Cluster} (hs : SortedClusters cs) :
    (pairsOf cs).Pairwise LexLT := by
  induction cs with
  | nil => simp [pairsOf]
  | cons c cs ih =>
    have hs' : SortedClusters cs := (List.pairwise_cons.mp hs).2
    have hhead : ∀ x ∈ cs, c.id < x.id := (List.pairwise_cons.mp hs).1
    rw [pairsOf, List.pairwise_append]
    refine ⟨?_, ih hs', ?_⟩
    · rw [List.pairwise_map]
      exact hs'.imp (fun {x y} hxy => Or.inr ⟨rfl, hxy⟩)
    · intro p hp q hq
      rcases List.mem_map.mp hp with ⟨c', _, rfl⟩
      exact Or.inl (hhead q.1 (pairsOf_mem hq).1)

lemma foldl_sel_mem (dm : ℕ → ℕ → ℚ) (ps : List (Cluster × Cluster)) (acc : Cluster × Cluster) :
    ps.foldl (fun best q => if pairD dm q < pairD dm best then q else best) acc ∈ acc :: ps := by
  induction ps generalizing acc with
  | nil => simp
  | cons q qs ih =>
    simp only [List.foldl_cons]
    have h := ih (if pairD dm q < pairD dm acc then q else acc)
    by_cases hc : pairD dm q < pairD dm acc
    · rw [if_pos hc] at h ⊢
      rcases List.mem_cons.mp h with h | h
      · rw [h]
        exact List.mem_cons_of_mem _ (List.mem_cons_self _ _)
      · exact List.mem_cons_of_mem _ (List.mem_cons_of_mem _ h)
    · rw [if_neg hc] at h ⊢
      rcases List.mem_cons.mp h with h | h
      · rw [h]
        exact List.mem_cons_self _ _
      · exact List.mem_cons_of_mem _ (List.mem_cons_of_mem _ h)

lemma foldl_sel_le (dm : ℕ → ℕ → ℚ) (ps : List (Cluster × Cluster)) (acc : Cluster × Cluster) :
    ∀ r ∈ acc :: ps,
      pairD dm (ps.foldl (fun best q => if pairD dm q < pairD dm best then q else best) acc)
        ≤ pairD dm r := by
  induction ps generalizing acc with
  | nil =>
    intro r hr
    rcases List.mem_cons.mp hr with rfl | h
    · simp
    · cases h
  | cons q qs ih =>
    intro r hr
    simp only [List.foldl_cons]
    have hacc' : pairD dm (if pairD dm q < pairD dm acc then q else acc) ≤ pairD dm acc ∧
        pairD dm (if pairD dm q < pairD dm acc then q else acc) ≤ pairD dm q := by
      by_cases hc : pairD dm q < pairD dm acc <;> simp [hc] <;> linarith
    have hself := ih (if pairD dm q < pairD dm acc then q else acc)
      (if pairD dm q < pairD dm acc then q else acc) (List.mem_cons_self _ _)
    rcases List.mem_cons.mp hr with rfl | hr'
    · exact le_trans hself hacc'.1
    · rcases List.mem_cons.mp hr' with rfl | hr''
      · exact le_trans hself hacc'.2
      · exact ih _ r (List.mem_cons_of_mem _ hr'')

lemma foldl_sel_eq_or_lt (dm : ℕ → ℕ → ℚ) (ps : List (Cluster × Cluster))
    (acc : Cluster × Cluster) :
    ps.foldl (fun best q => if pairD dm q < pairD dm best then q else best) acc = acc ∨
      pairD dm (ps.foldl (fun best q => if pairD dm q < pairD dm best then q else best) acc)
        < pairD dm acc := by
  induction ps generalizing acc with
  | nil => exact Or.inl rfl
  | cons q qs ih =>
    simp only [List.foldl_cons]
    by_cases hc : pairD dm q < pairD dm acc
    · simp only [if_pos hc]
      rcases ih q with h | h
      · rw [h]; exact Or.inr hc
      · exact Or.inr (lt_trans h hc)
    · simp only [if_neg hc]
      exact ih acc

lemma foldl_sel_lex (dm : ℕ → ℕ → ℚ) (ps : List (Cluster × Cluster))
    (acc : Cluster × Cluster) (hp : (acc :: ps).Pairwise LexLT) :
    ∀ r ∈ acc :: ps,
      pairD dm r =
        pairD dm (ps.foldl (fun best q => if pairD dm q < pairD dm best then q else best) acc) →
      (ps.foldl (fun best q => if pairD dm q < pairD dm best then q else best) acc) = r ∨
        LexLT (ps.foldl (fun best q => if pairD dm q < pairD dm best then q else best) acc) r := by
  induction ps generalizing acc with
  | nil =>
    intro r hr _
    rcases List.mem_cons.mp hr with rfl | h
    · exact Or.inl rfl
    · cases h
  | cons q qs ih =>
    intro r hr heq
    simp only [List.foldl_cons] at heq ⊢
    have hq_acc : LexLT acc q := (List.pairwise_cons.mp hp).1 q (List.mem_cons_self _ _)
    have hacc_qs : ∀ x ∈ qs, LexLT acc x := fun x hx =>
      (List.pairwise_cons.mp hp).1 x (List.mem_cons_of_mem _ hx)
    have hqs_pw : qs.Pairwise LexLT := (List.pairwise_cons.mp (List.pairwise_cons.mp hp).2).2
    by_cases hc : pairD dm q < pairD dm acc
    · rw [if_pos hc] at heq ⊢
      have ihh := ih q (List.pairwise_cons.mp hp).2
      rcases List.mem_cons.mp hr with hra | hr'
      · exfalso
        have h1 := foldl_sel_le dm qs q q (List.mem_cons_self _ _)
        rw [hra] at heq
        rw [← heq] at h1
        exact absurd (lt_of_le_of_lt h1 hc) (lt_irrefl _)
      · exact ihh r hr' heq
    · rw [if_neg hc] at heq ⊢
      have ihh := ih acc (List.pairwise_cons.mpr ⟨hacc_qs, hqs_pw⟩)
      rcases List.mem_cons.mp hr with hra | hr'
      · refine ihh r ?_ heq
        rw [hra]
        exact List.mem_cons_self _ _
      · rcases List.mem_cons.mp hr' with hrq | hr''
        · rcases foldl_sel_eq_or_lt dm qs acc with h | h
          · rw [h, hrq]
            exact Or.inr hq_acc
          · exfalso
            rw [← heq] at h
            rw [hrq] at h
            exact absurd (lt_of_lt_of_le h (not_lt.mp hc)) (lt_irrefl _)
        · exact ihh r (List.mem_cons_of_mem _ hr'') heq

lemma pickMin_eq_none {dm : ℕ → ℕ → ℚ} {ps : List (Cluster × Cluster)} :
    pickMin dm ps = none ↔ ps = [] := by
  cases ps <;> simp [pickMin]

lemma pickMin_mem {dm : ℕ → ℕ → ℚ} {ps : List (Cluster × Cluster)} {p : Cluster × Cluster}
    (h : pickMin dm ps = some p) : p ∈ ps := by
  cases ps with
  | nil => simp [pickMin] at h
  | cons q qs =>
    simp only [pickMin, Option.some_inj] at h
    rw [← h]
    exact foldl_sel_mem dm qs q

lemma pickMin_le {dm : ℕ → ℕ → ℚ} {ps : List (Cluster × Cluster)} {p : Cluster × Cluster}
    (h : pickMin dm ps = some p) : ∀ q ∈ ps, pairD dm p ≤ pairD dm q := by
  cases ps with
  | nil => simp [pickMin] at h
  | cons q qs =>
    simp only [pickMin, Option.some_inj] at h
    rw [← h]
    exact foldl_sel_le dm qs q

lemma pickMin_lex {dm : ℕ → ℕ → ℚ} {ps : List (Cluster × Cluster)} {p : Cluster × Cluster}
    (hpw : ps.Pairwise LexLT) (h : pickMin dm ps = some p) :
    ∀ q ∈ ps, pairD dm q = pairD dm p → p = q ∨ LexLT p q := by
  cases ps with
  | nil => simp [pickMin] at h
  | cons q qs =>
    simp only [pickMin, Option.some_inj] at h
    rw [← h]
    intro r hr heq
    exact foldl_sel_lex dm qs q hpw r hr heq

lemma sorted_id_inj {cs : List Cluster} (hs : SortedClusters cs) {x y : Cluster}
    (hx : x ∈ cs) (hy : y ∈ cs) (hid : x.id = y.id) : x = y := by
  induction cs with
  | nil => cases hx
  | cons c cs ih =>
    have hhead : ∀ z ∈ cs, c.id < z.id := (List.pairwise_cons.mp hs).1
    have hs' : SortedClusters cs := (List.pairwise_cons.mp hs).2
    rcases List.mem_cons.mp hx with rfl | hx'
    · rcases List.mem_cons.mp hy with rfl | hy'
      · rfl
      · exact absurd (hhead y hy') (by omega)
    · rcases List.mem_cons.mp hy with rfl | hy'
      · exact absurd (hhead x hx') (by omega)
      · exact ih hs' hx' hy'

lemma clusterSize_eq {cs : List Cluster} (hs : SortedClusters cs) {x : Cluster}
    (hx : x ∈ cs) : clusterSize cs x.id = x.size := by
  induction cs with
  | nil => cases hx
  | cons c cs ih =>
    have hs' : SortedClusters cs := (List.pairwise_cons.mp hs).2
    by_cases hc : c.id = x.id
    · have hcx : c = x := sorted_id_inj hs (List.mem_cons_self c cs) hx hc
      simp [clusterSize, List.find?_cons_of_pos, hc]
      rw [hcx]
    · have hx' : x ∈ cs := by
        rcases List.mem_cons.mp hx with rfl | hx'
        · exact absurd rfl hc
        · exact hx'
      have := ih hs' hx'
      simp only [clusterSize] at this ⊢
      rw [List.find?_cons_of_neg]
      · exact this
      · simp [hc]

lemma sorted_erase {cs : List Cluster} (hs : SortedClusters cs) (a : Cluster) :
    SortedClusters (cs.erase a) :=
  List.Pairwise.sublist (List.erase_sublist a cs) hs

lemma step_some (st : LinkState) (h2 : 2 ≤ st.clusters.length) :
    ∃ a b, pickMin st.dfun (pairsOf st.clusters) = some (a, b) ∧
      step st = some (mergeOf st a b, mergedState st a b) := by
  obtain ⟨c1, c2, cs, hcs⟩ : ∃ c1 c2 cs, st.clusters = c1 :: c2 :: cs := by
    rcases hl : st.clusters with _ | ⟨c1, _ | ⟨c2, cs⟩⟩
    · rw [hl] at h2; simp at h2
    · rw [hl] at h2; simp at h2
    · exact ⟨c1, c2, cs, rfl⟩
  have hne : pairsOf st.clusters ≠ [] := by
    rw [hcs]; exact pairsOf_ne_nil c1 c2 cs
  cases hpick : pickMin st.dfun (pairsOf st.clusters) with
  | none => exact absurd (pickMin_eq_none.mp hpick) hne
  | some p =>
    obtain ⟨a, b⟩ := p
    refine ⟨a, b, rfl, ?_⟩
    simp [step, hpick]

lemma merged_facts {st : LinkState} (hInv : Inv st) {a b : Cluster}
    (hpick : pickMin st.dfun (pairsOf st.clusters) = some (a, b)) :
    a ∈ st.clusters ∧ b ∈ st.clusters ∧ a.id < b.id ∧
    Inv (mergedState st a b) ∧
    (mergedState st a b).clusters.length + 1 = st.clusters.length ∧
    sizeSum (mergedState st a b).clusters = sizeSum st.clusters ∧
    (mergedState st a b).nextId = st.nextId + 1 := by
  obtain ⟨hs, hlt, hsz⟩ := hInv
  have hmemp := pickMin_mem hpick
  have ha : a ∈ st.clusters := (pairsOf_mem hmemp).1
  have hb : b ∈ st.clusters := (pairsOf_mem hmemp).2
  have hab : a.id < b.id := pairsOf_fst_lt hs hmemp
  have hne : b ≠ a := fun h => by rw [h] at hab; exact lt_irrefl _ hab
  have hb' : b ∈ st.clusters.erase a := (List.mem_erase_of_ne hne).mpr hb
  have hlen1 : (st.clusters.erase a).length = st.clusters.length - 1 :=
    List.length_erase_of_mem ha
  have hlen2 : ((st.clusters.erase a).erase b).length = (st.clusters.erase a).length - 1 :=
    List.length_erase_of_mem hb'
  have hlenpos : 1 ≤ st.clusters.length := List.length_pos.mpr (List.ne_nil_of_mem ha)
  have hlenpos2 : 1 ≤ (st.clusters.erase a).length :=
    List.length_pos.mpr (List.ne_nil_of_mem hb')
  have hrest_mem : ∀ x ∈ (st.clusters.erase a).erase b, x ∈ st.clusters := fun x hx =>
    List.mem_of_mem_erase (List.mem_of_mem_erase hx)
  refine ⟨ha, hb, hab, ⟨?_, ?_, ?_⟩, ?_, ?_, rfl⟩
  · -- sortedness of the merged cluster list
    show SortedClusters (((st.clusters.erase a).erase b) ++ [⟨st.nextId, a.size + b.size⟩])
    rw [SortedClusters, List.pairwise_append]
    refine ⟨sorted_erase (sorted_erase hs a) b, List.pairwise_singleton _ _, ?_⟩
    intro x hx y hy
    rw [List.mem_singleton.mp hy]
    exact hlt x (hrest_mem x hx)
  · intro c hc
    show c.id < st.nextId + 1
    rcases List.mem_append.mp hc with hc' | hc'
    · exact lt_trans (hlt c (hrest_mem c hc')) (Nat.lt_succ_self _)
    · rw [List.mem_singleton.mp hc']
      exact Nat.lt_succ_self _
  · intro c hc
    rcases List.mem_append.mp hc with hc' | hc'
    · exact hsz c (hrest_mem c hc')
    · rw [List.mem_singleton.mp hc']
      have := hsz a ha
      show 1 ≤ a.size + b.size
      omega
  · show (((st.clusters.erase a).erase b) ++ [(⟨st.nextId, a.size + b.size⟩ : Cluster)]).length + 1
      = st.clusters.length
    rw [List.length_append]
    simp only [List.length_singleton]
    omega
  · -- total size is preserved
    show sizeSum (((st.clusters.erase a).erase b) ++ [⟨st.nextId, a.size + b.size⟩])
      = sizeSum st.clusters
    have hp1 : List.Perm st.clusters (a :: st.clusters.erase a) := List.perm_cons_erase ha
    have hp2 : List.Perm (st.clusters.erase a) (b :: (st.clusters.erase a).erase b) :=
      List.perm_cons_erase hb'
    have e1 : sizeSum st.clusters = a.size + sizeSum (st.clusters.erase a) := by
      unfold sizeSum
      rw [(hp1.map Cluster.size).sum_eq]
      simp
    have e2 : sizeSum (st.clusters.erase a) = b.size + sizeSum ((st.clusters.erase a).erase b) := by
      unfold sizeSum
      rw [(hp2.map Cluster.size).sum_eq]
      simp
    unfold sizeSum
    rw [List.map_append, List.sum_append]
    unfold sizeSum at e1 e2
    simp only [List.map_singleton, List.sum_singleton]
    omega

lemma getLast?_cons_ne_nil {m : Merge} {t : List Merge} (ht : t ≠ []) :
    (m :: t).getLast? = t.getLast? := by
  cases t with
  | nil => exact absurd rfl ht
  | cons x xs => rfl

/-- With `fuel + 1` active clusters, the agglomeration performs exactly
`fuel` merges, and (when at least one merge happens) the last merge subsumes
every original entity. -/
lemma linkSteps_count : ∀ (fuel : ℕ) (st : LinkState), Inv st →
    st.clusters.length = fuel + 1 →
    (linkSteps fuel st).length = fuel ∧
    (1 ≤ fuel → ∃ mr, (linkSteps fuel st).getLast? = some mr ∧
      mr.size = sizeSum st.clusters) := by
  intro fuel
  induction fuel with
  | zero => exact fun st _ _ => ⟨rfl, by omega⟩
  | succ fuel ih =>
    intro st hInv hlen
    obtain ⟨a, b, hpick, hstep⟩ := step_some st (by omega)
    obtain ⟨ha, hb, hab, hInv', hlen', hsum', _⟩ := merged_facts hInv hpick
    have hlen'' : (mergedState st a b).clusters.length = fuel + 1 := by omega
    have ihm := ih (mergedState st a b) hInv' hlen''
    have hunfold : linkSteps (fuel + 1) st
        = mergeOf st a b :: linkSteps fuel (mergedState st a b) := by
      rw [linkSteps, hstep]
    constructor
    · rw [hunfold, List.length_cons, ihm.1]
    · intro _
      rcases Nat.eq_zero_or_pos fuel with hf0 | hfpos
      · subst hf0
        refine ⟨mergeOf st a b, ?_, ?_⟩
        · rw [hunfold]
          rfl
        · -- one cluster remains; it carries the whole population
          have h1 : (mergedState st a b).clusters.length = 1 := hlen''
          obtain ⟨c, hc⟩ : ∃ c, (mergedState st a b).clusters = [c] := by
            rcases hl : (mergedState st a b).clusters with _ | ⟨c, _ | _⟩
            · rw [hl] at h1; simp at h1
            · exact ⟨c, rfl⟩
            · rw [hl] at h1; simp at h1
          have hrest : ((st.clusters.erase a).erase b) = [] := by
            have : (mergedState st a b).clusters
                = ((st.clusters.erase a).erase b) ++ [⟨st.nextId, a.size + b.size⟩] := rfl
            rw [this] at h1
            rw [List.length_append] at h1
            simp only [List.length_singleton] at h1
            exact List.length_eq_zero.mp (by omega)
          have : (mergedState st a b).clusters = [⟨st.nextId, a.size + b.size⟩] := by
            show ((st.clusters.erase a).erase b) ++ [⟨st.nextId, a.size + b.size⟩]
              = [⟨st.nextId, a.size + b.size⟩]
            rw [hrest]
            rfl
          have hsz : sizeSum (mergedState st a b).clusters = a.size + b.size := by
            rw [this]
            simp [sizeSum]
          show (mergeOf st a b).size = sizeSum st.clusters
          rw [← hsum', hsz]
          rfl
      · obtain ⟨mr, hmr, hmrsz⟩ := ihm.2 hfpos
        refine ⟨mr, ?_, by rw [hmrsz, hsum']⟩
        rw [hunfold, getLast?_cons_ne_nil, hmr]
        intro hnil
        rw [hnil] at ihm
        simp at ihm
        omega

lemma initState_facts (N : ℕ) (dm : ℕ → ℕ → ℚ) :
    Inv (initState N dm) ∧ (initState N dm).clusters.length = N ∧
      sizeSum (initState N dm).clusters = N := by
  refine ⟨⟨?_, ?_, ?_⟩, ?_, ?_⟩
  · show ((List.range N).map fun i => (⟨i, 1⟩ : Cluster)).Pairwise fun c c' => c.id < c'.id
    rw [List.pairwise_map]
    exact List.pairwise_lt_range N
  · intro c hc
    rcases List.mem_map.mp hc with ⟨i, hi, rfl⟩
    exact List.mem_range.mp hi
  · intro c hc
    rcases List.mem_map.mp hc with ⟨i, _, rfl⟩
    exact le_refl 1
  · show ((List.range N).map fun i => (⟨i, 1⟩ : Cluster)).length = N
    rw [List.length_map, List.length_range]
  · show (((List.range N).map fun i => (⟨i, 1⟩ : Cluster)).map Cluster.size).sum = N
    rw [List.map_map]
    show ((List.range N).map fun _ => 1).sum = N
    induction N with
    | zero => rfl
    | succ n ihn => rw [List.range_succ, List.map_append, List.sum_append, ihn]; simp

/-- C3: for every valid (symmetric, nonnegative) dissimilarity input over
`N ≥ 2` entities, agglomerative linkage performs exactly `N − 1` merge
steps, and the final merge subsumes all `N` original entities (its cluster
is the root). -/
theorem C3_linkage_count (N : ℕ) (dm : ℕ → ℕ → ℚ) (hN : 2 ≤ N)
    (hsym : ∀ i j, dm i j = dm j i) (hnn : ∀ i j, 0 ≤ dm i j) :
    (linkage N dm).length = N - 1 ∧
    ∃ mr, (linkage N dm).getLast? = some mr ∧ mr.size = N := by
  obtain ⟨hInv, hlen, hsum⟩ := initState_facts N dm
  have h1 : (initState N dm).clusters.length = (N - 1) + 1 := by omega
  obtain ⟨hcount, hlast⟩ := linkSteps_count (N - 1) (initState N dm) hInv h1
  refine ⟨hcount, ?_⟩
  obtain ⟨mr, hmr, hmrsz⟩ := hlast (by omega)
  exact ⟨mr, hmr, by rw [hmrsz, hsum]⟩

/-- Concrete instance of `C3_linkage_count`: two entities merge in exactly
one step. -/
theorem C3_linkage_count_witness :
    (linkage 2 fun _ _ => 0).length = 2 - 1 :=
  (C3_linkage_count 2 (fun _ _ => 0) (by norm_num) (fun _ _ => rfl)
    (fun _ _ => le_refl 0)).1

lemma merged_sym {st : LinkState} (a b : Cluster)
    (hsym : ∀ i j, st.dfun i j = st.dfun j i) :
    ∀ i j, (mergedState st a b).dfun i j = (mergedState st a b).dfun j i := by
  intro i j
  show (if i = st.nextId then wardUpdate st a b j
        else if j = st.nextId then wardUpdate st a b i else st.dfun i j)
      = (if j = st.nextId then wardUpdate st a b i
        else if i = st.nextId then wardUpdate st a b j else st.dfun j i)
  by_cases hi : i = st.nextId <;> by_cases hj : j = st.nextId <;>
    simp [hi, hj, hsym i j]

/-- Reducibility of the Ward update: the dissimilarity from a surviving
cluster to the merged cluster is at least the merge dissimilarity. -/
lemma wardUpdate_ge {st : LinkState} (hInv : Inv st) {a b x : Cluster}
    (ha : a ∈ st.clusters) (hb : b ∈ st.clusters) (hx : x ∈ st.clusters)
    (hxa : x.id ≠ a.id) (hxb : x.id ≠ b.id)
    (hdxa : st.dfun a.id b.id ≤ st.dfun x.id a.id)
    (hdxb : st.dfun a.id b.id ≤ st.dfun x.id b.id) :
    st.dfun a.id b.id ≤ wardUpdate st a b x.id := by
  obtain ⟨hs, _, hsz⟩ := hInv
  have hska : (1 : ℚ) ≤ (a.size : ℚ) := by exact_mod_cast hsz a ha
  have hskb : (1 : ℚ) ≤ (b.size : ℚ) := by exact_mod_cast hsz b hb
  have hskx : (1 : ℚ) ≤ (x.size : ℚ) := by exact_mod_cast hsz x hx
  have hcs : clusterSize st.clusters x.id = x.size := clusterSize_eq hs hx
  show st.dfun a.id b.id ≤
    ((clusterSize st.clusters x.id + (a.size : ℚ)) * st.dfun x.id a.id
      + ((clusterSize st.clusters x.id : ℚ) + b.size) * st.dfun x.id b.id
      - (clusterSize st.clusters x.id : ℚ) * st.dfun a.id b.id)
      / ((a.size : ℚ) + b.size + clusterSize st.clusters x.id)
  rw [hcs]
  set δ := st.dfun a.id b.id with hδ
  set sa : ℚ := (a.size : ℚ)
  set sb : ℚ := (b.size : ℚ)
  set sx : ℚ := (x.size : ℚ)
  have hden : (0 : ℚ) < sa + sb + sx := by linarith
  rw [le_div_iff hden]
  have h1 : (sx + sa) * δ ≤ (sx + sa) * st.dfun x.id a.id :=
    mul_le_mul_of_nonneg_left hdxa (by linarith)
  have h2 : (sx + sb) * δ ≤ (sx + sb) * st.dfun x.id b.id :=
    mul_le_mul_of_nonneg_left hdxb (by linarith)
  nlinarith [h1, h2]

lemma merged_lb {st : LinkState} (hInv : Inv st) {a b : Cluster} {δ0 : ℚ}
    (hpick : pickMin st.dfun (pairsOf st.clusters) = some (a, b))
    (hsym : ∀ i j, st.dfun i j = st.dfun j i)
    (hlb : ∀ x ∈ st.clusters, ∀ y ∈ st.clusters, x.id ≠ y.id → δ0 ≤ st.dfun x.id y.id)
    (hδ0 : 0 ≤ δ0) :
    δ0 ≤ st.dfun a.id b.id ∧
    (∀ x ∈ (mergedState st a b).clusters, ∀ y ∈ (mergedState st a b).clusters,
      x.id ≠ y.id → st.dfun a.id b.id ≤ (mergedState st a b).dfun x.id y.id) := by
  obtain ⟨hs, hltn, hsz⟩ := hInv
  have hmemp := pickMin_mem hpick
  have ha : a ∈ st.clusters := (pairsOf_mem hmemp).1
  have hb : b ∈ st.clusters := (pairsOf_mem hmemp).2
  have hab : a.id < b.id := pairsOf_fst_lt hs hmemp
  have hnd : st.clusters.Nodup := hs.imp fun {c c'} h => by
    intro hcc
    rw [hcc] at h
    exact lt_irrefl _ h
  -- the selected pair is a global minimum over distinct active identifiers
  have hmin : ∀ x ∈ st.clusters, ∀ y ∈ st.clusters, x.id ≠ y.id →
      st.dfun a.id b.id ≤ st.dfun x.id y.id := by
    intro x hx y hy hne
    rcases lt_or_gt_of_ne hne with h | h
    · exact pickMin_le hpick (x, y) (mem_pairsOf hs hx hy h)
    · rw [hsym x.id y.id]
      exact pickMin_le hpick (y, x) (mem_pairsOf hs hy hx h)
  refine ⟨hlb a ha b hb (by omega), ?_⟩
  intro x hx y hy hne
  have hrest_facts : ∀ z ∈ (st.clusters.erase a).erase b,
      z ∈ st.clusters ∧ z.id ≠ a.id ∧ z.id ≠ b.id ∧ z.id ≠ st.nextId := by
    intro z hz
    have h1 := (List.Nodup.mem_erase_iff (hnd.erase a)).mp hz
    have h2 := (List.Nodup.mem_erase_iff hnd).mp h1.2
    have hzc : z ∈ st.clusters := h2.2
    refine ⟨hzc, ?_, ?_, ?_⟩
    · intro hid
      exact h2.1 (sorted_id_inj hs hzc ha hid)
    · intro hid
      exact h1.1 (sorted_id_inj hs hzc hb hid)
    · exact Nat.ne_of_lt (hltn z hzc)
  have hward : ∀ z ∈ (st.clusters.erase a).erase b,
      st.dfun a.id b.id ≤ wardUpdate st a b z.id := by
    intro z hz
    obtain ⟨hzc, hza, hzb, _⟩ := hrest_facts z hz
    exact wardUpdate_ge ⟨hs, hltn, hsz⟩ ha hb hzc hza hzb
      (hmin z hzc a ha hza) (hmin z hzc b hb hzb)
  rcases List.mem_append.mp hx with hx' | hx' <;> rcases List.mem_append.mp hy with hy' | hy'
  · -- both survivors: distance unchanged
    obtain ⟨hxc, _, _, hxn⟩ := hrest_facts x hx'
    obtain ⟨hyc, _, _, hyn⟩ := hrest_facts y hy'
    show (if x.id = st.nextId then wardUpdate st a b y.id
          else if y.id = st.nextId then wardUpdate st a b x.id
          else st.dfun x.id y.id) ≥ _
    rw [if_neg hxn, if_neg hyn]
    exact hmin x hxc y hyc hne
  · -- x survivor, y the fresh cluster
    obtain ⟨_, _, _, hxn⟩ := hrest_facts x hx'
    have hyid : y.id = st.nextId := by
      rw [List.mem_singleton.mp hy']
    show (if x.id = st.nextId then wardUpdate st a b y.id
          else if y.id = st.nextId then wardUpdate st a b x.id
          else st.dfun x.id y.id) ≥ _
    rw [if_neg hxn, if_pos hyid]
    exact hward x hx'
  · -- x the fresh cluster, y survivor
    have hxid : x.id = st.nextId := by
      rw [List.mem_singleton.mp hx']
    show (if x.id = st.nextId then wardUpdate st a b y.id
          else if y.id = st.nextId then wardUpdate st a b x.id
          else st.dfun x.id y.id) ≥ _
    rw [if_pos hxid]
    exact hward y hy'
  · exact absurd (by rw [List.mem_singleton.mp hx', List.mem_singleton.mp hy']) hne

/-- Along any run, recorded merge dissimilarities are bounded below by the
initial bound and are non-decreasing. -/
lemma linkSteps_mono : ∀ (fuel : ℕ) (st : LinkState) (δ0 : ℚ), Inv st →
    (∀ i j, st.dfun i j = st.dfun j i) →
    (∀ x ∈ st.clusters, ∀ y ∈ st.clusters, x.id ≠ y.id → δ0 ≤ st.dfun x.id y.id) →
    0 ≤ δ0 →
    ((linkSteps fuel st).map Merge.dist).Pairwise (· ≤ ·) ∧
    (∀ m ∈ linkSteps fuel st, δ0 ≤ m.dist) := by
  intro fuel
  induction fuel with
  | zero => exact fun st δ0 _ _ _ _ => ⟨List.Pairwise.nil, by simp [linkSteps]⟩
  | succ fuel ih =>
    intro st δ0 hInv hsym hlb hδ0
    cases hpick : pickMin st.dfun (pairsOf st.clusters) with
    | none =>
      have hstep : step st = none := by simp [step, hpick]
      rw [linkSteps, hstep]
      exact ⟨List.Pairwise.nil, by simp⟩
    | some p =>
      obtain ⟨a, b⟩ := p
      have hstep : step st = some (mergeOf st a b, mergedState st a b) := by
        simp [step, hpick]
      have hunfold : linkSteps (fuel + 1) st
          = mergeOf st a b :: linkSteps fuel (mergedState st a b) := by
        rw [linkSteps, hstep]
      obtain ⟨_, _, _, hInv', _, _, _⟩ := merged_facts ⟨hInv.1, hInv.2.1, hInv.2.2⟩ hpick
      obtain ⟨hδ, hlb'⟩ := merged_lb ⟨hInv.1, hInv.2.1, hInv.2.2⟩ hpick hsym hlb hδ0
      have hsym' := merged_sym a b hsym
      have ihm := ih (mergedState st a b) (st.dfun a.id b.id) hInv' hsym' hlb'
        (le_trans hδ0 hδ)
      rw [hunfold]
      constructor
      · rw [List.map_cons, List.pairwise_cons]
        refine ⟨?_, ihm.1⟩
        intro q hq
        rcases List.mem_map.mp hq with ⟨m, hm, rfl⟩
        exact ihm.2 m hm
      · intro m hm
        rcases List.mem_cons.mp hm with rfl | hm'
        · exact hδ
        · exact le_trans hδ (ihm.2 m hm')

/-- C4: for every symmetric, nonnegative dissimilarity input, the merge
dissimilarities recorded by Ward linkage are non-decreasing in merge order:
for all merge indices `i < j`, `dist(merge_i) ≤ dist(merge_j)`. -/
theorem C4_monotonicity (N : ℕ) (dm : ℕ → ℕ → ℚ)
    (hsym : ∀ i j, dm i j = dm j i) (hnn : ∀ i j, 0 ≤ dm i j) :
    ((linkage N dm).map Merge.dist).Pairwise (· ≤ ·) ∧
    ∀ (i j : ℕ) (hij : i < j) (hj : j < (linkage N dm).length),
      ((linkage N dm).get ⟨i, lt_trans hij hj⟩).dist ≤ ((linkage N dm).get ⟨j, hj⟩).dist := by
  have hpw : ((linkage N dm).map Merge.dist).Pairwise (· ≤ ·) := by
    obtain ⟨hInv, _, _⟩ := initState_facts N dm
    refine (linkSteps_mono (N - 1) (initState N dm) 0 hInv hsym ?_ (le_refl 0)).1
    intro x _ y _ _
    exact hnn x.id y.id
  refine ⟨hpw, ?_⟩
  intro i j hij hj
  have hlen : ((linkage N dm).map Merge.dist).length = (linkage N dm).length :=
    List.length_map _ _
  have h2 := List.pairwise_iff_get.mp hpw ⟨i, by omega⟩ ⟨j, by omega⟩ (by exact hij)
  simpa using h2

/-- Concrete instance of `C4_monotonicity`: three entities with squared
distances `d(0,1) = 1`, `d(0,2) = d(1,2) = 4`. -/
theorem C4_monotonicity_witness :
    ((linkage 3 fun i j => if i = j then 0 else if i + j = 1 then 1 else 4).map
      Merge.dist).Pairwise (· ≤ ·) :=
  (C4_monotonicity 3 (fun i j => if i = j then 0 else if i + j = 1 then 1 else 4)
    (fun i j => by
      by_cases h : i = j
      · simp [h]
      · have : ¬ j = i := fun hc => h hc.symm
        simp only [if_neg h, if_neg this]
        rw [Nat.add_comm])
    (fun i j => by
      by_cases h : i = j
      · simp [h]
      · by_cases h1 : i + j = 1 <;> simp [h, h1] <;> norm_num)).1

lemma stateAt_facts (N : ℕ) (dm : ℕ → ℕ → ℚ) :
    ∀ k, k ≤ N - 1 → Inv (stateAt N dm k) ∧
      (stateAt N dm k).clusters.length = N - k ∧ (stateAt N dm k).nextId = N + k := by
  intro k
  induction k with
  | zero =>
    intro _
    obtain ⟨hInv, hlen, _⟩ := initState_facts N dm
    exact ⟨hInv, by simpa [stateAt] using hlen, by simp [stateAt, initState]⟩
  | succ k ih =>
    intro hk
    obtain ⟨hInv, hlen, hnext⟩ := ih (by omega)
    have h2 : 2 ≤ (stateAt N dm k).clusters.length := by omega
    obtain ⟨a, b, hpick, hstep⟩ := step_some _ h2
    obtain ⟨_, _, _, hInv', hlen', _, hnext'⟩ := merged_facts hInv hpick
    have hss : stateAt N dm (k + 1) = mergedState (stateAt N dm k) a b := by
      rw [stateAt, Function.iterate_succ_apply', ← stateAt]
      simp [stepState, hstep]
    rw [hss]
    exact ⟨hInv', by omega, by omega⟩

lemma linkSteps_get? : ∀ (k fuel : ℕ) (st : LinkState), Inv st →
    st.clusters.length = fuel + 1 → k < fuel →
    (linkSteps fuel st).get? k = (step (stepState^[k] st)).map Prod.fst := by
  intro k
  induction k with
  | zero =>
    intro fuel st hInv hlen hk
    cases fuel with
    | zero => omega
    | succ f =>
      obtain ⟨a, b, hpick, hstep⟩ := step_some st (by omega)
      rw [linkSteps, hstep]
      simp [hstep]
  | succ k ih =>
    intro fuel st hInv hlen hk
    cases fuel with
    | zero => omega
    | succ f =>
      obtain ⟨a, b, hpick, hstep⟩ := step_some st (by omega)
      obtain ⟨_, _, _, hInv', hlen', _, _⟩ := merged_facts hInv hpick
      rw [linkSteps, hstep]
      have hss : stepState st = mergedState st a b := by simp [stepState, hstep]
      rw [Function.iterate_succ_apply, hss]
      exact ih f (mergedState st a b) hInv' (by omega) (by omega)

lemma linkage_get? (N : ℕ) (dm : ℕ → ℕ → ℚ) (k : ℕ) (hk : k < N - 1) :
    (linkage N dm).get? k = (step (stateAt N dm k)).map Prod.fst := by
  obtain ⟨hInv, hlen, _⟩ := initState_facts N dm
  exact linkSteps_get? k (N - 1) (initState N dm) hInv (by omega) hk

/-- C7: at every step of the agglomeration, the selected pair minimizes the
current dissimilarity; among candidate pairs of identical minimal
dissimilarity the one with the lowest (earliest-created) identifiers is
selected; and the pair is recorded with its identifiers in increasing
order.  This makes the run deterministic. -/
theorem C7_tie_break (N : ℕ) (dm : ℕ → ℕ → ℚ) (k : ℕ) (hk : k < N - 1) :
    ∃ p : Cluster × Cluster,
      pickMin (stateAt N dm k).dfun (pairsOf (stateAt N dm k).clusters) = some p ∧
      p ∈ pairsOf (stateAt N dm k).clusters ∧
      p.1.id < p.2.id ∧
      (∀ q ∈ pairsOf (stateAt N dm k).clusters,
        pairD (stateAt N dm k).dfun p ≤ pairD (stateAt N dm k).dfun q) ∧
      (∀ q ∈ pairsOf (stateAt N dm k).clusters,
        pairD (stateAt N dm k).dfun q = pairD (stateAt N dm k).dfun p →
        p.1.id < q.1.id ∨ (p.1.id = q.1.id ∧ p.2.id ≤ q.2.id)) ∧
      (linkage N dm).get? k =
        some ⟨p.1.id, p.2.id, (stateAt N dm k).dfun p.1.id p.2.id,
          p.1.size + p.2.size⟩ := by
  obtain ⟨hInv, hlen, _⟩ := stateAt_facts N dm k (by omega)
  obtain ⟨a, b, hpick, hstep⟩ := step_some (stateAt N dm k) (by omega)
  have hmem := pickMin_mem hpick
  refine ⟨(a, b), hpick, hmem, pairsOf_fst_lt hInv.1 hmem, pickMin_le hpick, ?_, ?_⟩
  · intro q hq heq
    rcases pickMin_lex (pairsOf_lex hInv.1) hpick q hq heq with h | h
    · rcases h with rfl
      right
      exact ⟨rfl, le_refl _⟩
    · rcases h with h | ⟨h1, h2⟩
      · exact Or.inl h
      · exact Or.inr ⟨h1, le_of_lt h2⟩
  · rw [linkage_get? N dm k hk, hstep]
    rfl

/-- Concrete instance of `C7_tie_break`: three entities, all pairwise
dissimilarities equal — a full tie at the first step. -/
theorem C7_tie_break_witness :
    ∃ p : Cluster × Cluster,
      pickMin (stateAt 3 (fun _ _ => 1) 0).dfun
        (pairsOf (stateAt 3 (fun _ _ => 1) 0).clusters) = some p ∧
      p ∈ pairsOf (stateAt 3 (fun _ _ => 1) 0).clusters ∧
      p.1.id < p.2.id ∧
      (∀ q ∈ pairsOf (stateAt 3 (fun _ _ => 1) 0).clusters,
        pairD (stateAt 3 (fun _ _ => 1) 0).dfun p ≤ pairD (stateAt 3 (fun _ _ => 1) 0).dfun q) ∧
      (∀ q ∈ pairsOf (stateAt 3 (fun _ _ => 1) 0).clusters,
        pairD (stateAt 3 (fun _ _ => 1) 0).dfun q = pairD (stateAt 3 (fun _ _ => 1) 0).dfun p →
        p.1.id < q.1.id ∨ (p.1.id = q.1.id ∧ p.2.id ≤ q.2.id)) ∧
      (linkage 3 (fun _ _ => 1)).get? 0 =
        some ⟨p.1.id, p.2.id, (stateAt 3 (fun _ _ => 1) 0).dfun p.1.id p.2.id,
          p.1.size + p.2.size⟩ :=
  C7_tie_break 3 (fun _ _ => 1) 0 (by norm_num)

/-! ## Flat cluster extraction (threshold cut)

Modelled from the spec: `scipy.cluster.hierarchy.fcluster` (library code,
not in the repository).  §4.4: walk the merge sequence, apply merges whose
recorded distance is `≤ T`, give transitively connected entities one
cluster identifier, and assign identifiers in order of first appearance
starting at 1. -/

/-- One walk step over the merge sequence: `acc` is the map from entity to
its current cluster identifier together with the index of the next merge;
an applied merge redirects members of its two clusters to the fresh
identifier. -/
def applyMerge (T : ℚ) (N : ℕ) (acc : (ℕ → ℕ) × ℕ) (m : Merge) : (ℕ → ℕ) × ℕ :=
  if m.dist ≤ T then
    (fun e => if acc.1 e = m.left ∨ acc.1 e = m.right then N + acc.2 else acc.1 e,
     acc.2 + 1)
  else (acc.1, acc.2 + 1)

/-- Entity-to-cluster-identifier map after walking the first `j` merges. -/
def repAt (N : ℕ) (ms : List Merge) (T : ℚ) (j : ℕ) : ℕ → ℕ :=
  ((ms.take j).foldl (applyMerge T N) (fun e => e, 0)).1

/-- Entity-to-cluster-identifier map after walking the whole merge
sequence. -/
def repAfter (N : ℕ) (ms : List Merge) (T : ℚ) : ℕ → ℕ :=
  (ms.foldl (applyMerge T N) (fun e => e, 0)).1

/-- The distinct values of a list in order of first appearance. -/
def firstOccs : List ℕ → List ℕ :=
  List.foldl (fun acc r => if r ∈ acc then acc else acc ++ [r]) []

/-- Modelled from the spec: `fcluster(ms, T, criterion='distance')` — flat
cluster labels for entities `0 … N−1`, assigned in order of first
appearance starting at `1`. -/
def fcluster (N : ℕ) (ms : List Merge) (T : ℚ) : List ℕ :=
  ((List.range N).map (repAfter N ms T)).map
    fun r => (firstOccs ((List.range N).map (repAfter N ms T))).indexOf r + 1

/-- The flat cluster label of entity `e`. -/
def labelOf (N : ℕ) (ms : List Merge) (T : ℚ) (e : ℕ) : ℕ :=
  (fcluster N ms T).getD e 0

/-- Leaf sets of every cluster identifier: identifiers `0 … N−1` are the
singleton leaves, identifier `N + k` holds the entities below merge `k`. -/
def memberLists (N : ℕ) (ms : List Merge) : List (List ℕ) :=
  ms.foldl (fun acc m => acc ++ [acc.getD m.left [] ++ acc.getD m.right []])
    ((List.range N).map fun e => [e])

/-- The entities below cluster identifier `i`. -/
def leafSet (N : ℕ) (ms : List Merge) (i : ℕ) : List ℕ :=
  (memberLists N ms).getD i []

/-- All identifiers consumed as children by some merge. -/
def childIdsList (ms : List Merge) : List ℕ :=
  ms.foldr (fun m acc => m.left :: m.right :: acc) []

/-- A structurally valid MergeTree over `N` entities, as produced by
agglomerative linkage: exactly `N − 1` merges, merge `k` joins two distinct
identifiers already created (`< N + k`), and no identifier is consumed
twice. -/
def ValidTree (N : ℕ) (ms : List Merge) : Prop :=
  ms.length = N - 1 ∧
  (∀ k (h : k < ms.length), (ms.get ⟨k, h⟩).left < N + k ∧
    (ms.get ⟨k, h⟩).right < N + k ∧ (ms.get ⟨k, h⟩).left ≠ (ms.get ⟨k, h⟩).right) ∧
  (childIdsList ms).Nodup

/-- Merge distances appear in non-decreasing order. -/
def SortedDists (ms : List Merge) : Prop := (ms.map Merge.dist).Pairwise (· ≤ ·)

/-- Two entities are directly connected through an applied merge (index
`< j`, recorded distance `≤ T`): one lies below its left child, the other
below its right child. -/
def ConnStepUpto (N : ℕ) (ms : List Merge) (T : ℚ) (j : ℕ) (e e' : ℕ) : Prop :=
  ∃ k, ∃ h : k < ms.length, k < j ∧ (ms.get ⟨k, h⟩).dist ≤ T ∧
    ((e ∈ leafSet N ms (ms.get ⟨k, h⟩).left ∧ e' ∈ leafSet N ms (ms.get ⟨k, h⟩).right) ∨
     (e ∈ leafSet N ms (ms.get ⟨k, h⟩).right ∧ e' ∈ leafSet N ms (ms.get ⟨k, h⟩).left))

/-- Entities connected transitively through merges recorded at distance
`≤ T`. -/
def Conn (N : ℕ) (ms : List Merge) (T : ℚ) : ℕ → ℕ → Prop :=
  Relation.EqvGen (ConnStepUpto N ms T ms.length)

/-- Identifier `i` is alive after the first `j` merges: already created and
not yet consumed. -/
def ActiveAt (N : ℕ) (ms : List Merge) (j i : ℕ) : Prop :=
  i < N + j ∧ i ∉ childIdsList (ms.take j)

/-- Index of the first merge whose distance exceeds `T` (with sorted
distances, exactly the merges before this index are applied). -/
def cutIdx (ms : List Merge) (T : ℚ) : ℕ :=
  (ms.takeWhile fun m => decide (m.dist ≤ T)).length

lemma foldl_extends (g : List (List ℕ) → Merge → List ℕ) :
    ∀ (l : List Merge) (acc : List (List ℕ)),
      ∃ ext, l.foldl (fun a m => a ++ [g a m]) acc = acc ++ ext := by
  intro l
  induction l with
  | nil => exact fun acc => ⟨[], by simp⟩
  | cons m l ih =>
    intro acc
    obtain ⟨ext, hext⟩ := ih (acc ++ [g acc m])
    exact ⟨[g acc m] ++ ext, by simp only [List.foldl_cons, hext, List.append_assoc]⟩

lemma foldl_length (g : List (List ℕ) → Merge → List ℕ) :
    ∀ (l : List Merge) (acc : List (List ℕ)),
      (l.foldl (fun a m => a ++ [g a m]) acc).length = acc.length + l.length := by
  intro l
  induction l with
  | nil => simp
  | cons m l ih =>
    intro acc
    rw [List.foldl_cons, ih]
    simp
    omega

lemma memberLists_length (N : ℕ) (ms : List Merge) :
    (memberLists N ms).length = N + ms.length := by
  unfold memberLists
  rw [foldl_length]
  simp

lemma memberLists_take (N : ℕ) (ms : List Merge) (j : ℕ) :
    ∃ ext, memberLists N ms = memberLists N (ms.take j) ++ ext := by
  obtain ⟨ext, hext⟩ := foldl_extends
    (fun a m => a.getD m.left [] ++ a.getD m.right []) (ms.drop j)
    (memberLists N (ms.take j))
  refine ⟨ext, ?_⟩
  unfold memberLists
  conv_lhs => rw [show ms = ms.take j ++ ms.drop j from (List.take_append_drop j ms).symm]
  rw [List.foldl_append]
  exact hext

lemma leafSet_stable (N : ℕ) (ms : List Merge) {j i : ℕ} (hj : j ≤ ms.length)
    (hi : i < N + j) :
    (memberLists N ms).getD i [] = (memberLists N (ms.take j)).getD i [] := by
  obtain ⟨ext, hext⟩ := memberLists_take N ms j
  rw [hext, List.getD_eq_getD_get?, List.getD_eq_getD_get?, List.get?_append]
  rw [memberLists_length, List.length_take]
  omega

lemma leafSet_leaf (N : ℕ) (ms : List Merge) {e : ℕ} (he : e < N) :
    leafSet N ms e = [e] := by
  unfold leafSet
  rw [leafSet_stable N ms (Nat.zero_le _) (by omega)]
  show (memberLists N []).getD e [] = [e]
  unfold memberLists
  rw [List.foldl_nil, List.getD_eq_getD_get?, List.get?_map, List.get?_range he]
  rfl

lemma leafSet_merge (N : ℕ) (ms : List Merge) {k : ℕ} (h : k < ms.length)
    (hl : (ms.get ⟨k, h⟩).left < N + k) (hr : (ms.get ⟨k, h⟩).right < N + k) :
    leafSet N ms (N + k) =
      leafSet N ms (ms.get ⟨k, h⟩).left ++ leafSet N ms (ms.get ⟨k, h⟩).right := by
  have htk : ms.take (k + 1) = ms.take k ++ [ms.get ⟨k, h⟩] := by
    rw [List.take_succ]
    congr
    rw [List.getElem?_eq_getElem h]
    rfl
  have hMk : (memberLists N (ms.take k)).length = N + k := by
    rw [memberLists_length, List.length_take]
    omega
  have hunf : memberLists N (ms.take (k + 1))
      = memberLists N (ms.take k) ++
        [(memberLists N (ms.take k)).getD (ms.get ⟨k, h⟩).left []
          ++ (memberLists N (ms.take k)).getD (ms.get ⟨k, h⟩).right []] := by
    unfold memberLists
    rw [htk, List.foldl_append, List.foldl_cons, List.foldl_nil]
  unfold leafSet
  rw [leafSet_stable N ms (by omega) (show N + k < N + (k + 1) by omega), hunf,
    List.getD_eq_getD_get?, List.get?_append_right (by omega)]
  rw [hMk]
  simp only [Nat.sub_self, List.get?_cons_zero, Option.getD_some]
  rw [leafSet_stable N ms (by omega) hl, leafSet_stable N ms (by omega) hr]

lemma applyMerge_snd (T : ℚ) (N : ℕ) : ∀ (l : List Merge) (acc : (ℕ → ℕ) × ℕ),
    (l.foldl (applyMerge T N) acc).2 = acc.2 + l.length := by
  intro l
  induction l with
  | nil => simp
  | cons m l ih =>
    intro acc
    rw [List.foldl_cons, ih]
    unfold applyMerge
    by_cases h : m.dist ≤ T <;> simp [h] <;> omega

lemma repAt_succ (N : ℕ) (ms : List Merge) (T : ℚ) {j : ℕ} (hj : j < ms.length) (e : ℕ) :
    repAt N ms T (j + 1) e =
      if (ms.get ⟨j, hj⟩).dist ≤ T then
        (if repAt N ms T j e = (ms.get ⟨j, hj⟩).left ∨
            repAt N ms T j e = (ms.get ⟨j, hj⟩).right
          then N + j else repAt N ms T j e)
      else repAt N ms T j e := by
  have htk : ms.take (j + 1) = ms.take j ++ [ms.get ⟨j, hj⟩] := by
    rw [List.take_succ]
    congr
    rw [List.getElem?_eq_getElem hj]
    rfl
  have hsnd : ((ms.take j).foldl (applyMerge T N) (fun e => e, 0)).2 = j := by
    rw [applyMerge_snd]
    rw [List.length_take]
    omega
  show ((ms.take (j + 1)).foldl (applyMerge T N) (fun e => e, 0)).1 e = _
  rw [htk, List.foldl_append, List.foldl_cons, List.foldl_nil]
  unfold applyMerge
  by_cases h : (ms.get ⟨j, hj⟩).dist ≤ T
  · rw [if_pos h]
    show (if repAt N ms T j e = (ms.get ⟨j, hj⟩).left ∨
        repAt N ms T j e = (ms.get ⟨j, hj⟩).right
      then N + ((ms.take j).foldl (applyMerge T N) (fun e => e, 0)).2
      else repAt N ms T j e) = _
    rw [hsnd, if_pos h]
  · rw [if_neg h]
    show repAt N ms T j e = _
    rw [if_neg h]

lemma repAfter_eq (N : ℕ) (ms : List Merge) (T : ℚ) :
    repAfter N ms T = repAt N ms T ms.length := by
  unfold repAfter repAt
  rw [List.take_length]

lemma takeWhile_facts (p : Merge → Bool) :
    ∀ l : List Merge, (l.takeWhile p).length ≤ l.length ∧
      (∀ k (hk : k < (l.takeWhile p).length),
        ∃ h : k < l.length, p (l.get ⟨k, h⟩) = true) ∧
      (∀ hb : (l.takeWhile p).length < l.length,
        p (l.get ⟨(l.takeWhile p).length, hb⟩) = false) := by
  intro l
  induction l with
  | nil => exact ⟨le_refl 0, fun k hk => by simp at hk, fun hb => by simp at hb⟩
  | cons a l ih =>
    cases hpa : p a
    · rw [List.takeWhile_cons, hpa]
      refine ⟨by simp, fun k hk => by simp at hk, fun hb => hpa⟩
    · rw [List.takeWhile_cons, hpa]
      refine ⟨by simpa using ih.1, ?_, ?_⟩
      · intro k hk
        cases k with
        | zero => exact ⟨by simp, hpa⟩
        | succ k =>
          obtain ⟨h, hp⟩ := ih.2.1 k (by simpa using hk)
          exact ⟨by simpa using h, hp⟩
      · intro hb
        have hb' : (l.takeWhile p).length < l.length := by simpa using hb
        exact ih.2.2 hb'

lemma cutIdx_le (ms : List Merge) (T : ℚ) : cutIdx ms T ≤ ms.length :=
  (takeWhile_facts _ ms).1

lemma cutIdx_applied {ms : List Merge} {T : ℚ} {k : ℕ} (hk : k < cutIdx ms T) :
    ∃ h : k < ms.length, (ms.get ⟨k, h⟩).dist ≤ T := by
  obtain ⟨h, hp⟩ := (takeWhile_facts _ ms).2.1 k hk
  exact ⟨h, of_decide_eq_true hp⟩

lemma cutIdx_not_applied {ms : List Merge} {T : ℚ} (hsort : SortedDists ms) {k : ℕ}
    (h : k < ms.length) (hk : cutIdx ms T ≤ k) : ¬ (ms.get ⟨k, h⟩).dist ≤ T := by
  have hb : cutIdx ms T < ms.length := lt_of_le_of_lt hk h
  have h2 : ¬ (ms.get ⟨cutIdx ms T, hb⟩).dist ≤ T :=
    of_decide_eq_false ((takeWhile_facts _ ms).2.2 hb)
  intro hcon
  rcases eq_or_lt_of_le hk with heq | hlt
  · refine h2 ?_
    have hgg : ms.get ⟨cutIdx ms T, hb⟩ = ms.get ⟨k, h⟩ := by
      congr 1
      exact Fin.ext heq
    rw [hgg]
    exact hcon
  · have hp := List.pairwise_iff_get.mp hsort
      ⟨cutIdx ms T, by rw [List.length_map]; exact hb⟩
      ⟨k, by rw [List.length_map]; exact h⟩ hlt
    simp only [List.get_map] at hp
    exact h2 (le_trans hp hcon)

lemma childIdsList_append (l1 l2 : List Merge) :
    childIdsList (l1 ++ l2) = childIdsList l1 ++ childIdsList l2 := by
  induction l1 with
  | nil => rfl
  | cons m l ih =>
    show m.left :: m.right :: childIdsList (l ++ l2) = _
    rw [ih]
    rfl

lemma childIdsList_take_succ {ms : List Merge} {j : ℕ} (hj : j < ms.length) :
    childIdsList (ms.take (j + 1)) =
      childIdsList (ms.take j) ++ [(ms.get ⟨j, hj⟩).left, (ms.get ⟨j, hj⟩).right] := by
  have htk : ms.take (j + 1) = ms.take j ++ [ms.get ⟨j, hj⟩] := by
    rw [List.take_succ]
    congr
    rw [List.getElem?_eq_getElem hj]
    rfl
  rw [htk, childIdsList_append]
  rfl

lemma childIdsList_nodup_take {ms : List Merge} (h : (childIdsList ms).Nodup) (j : ℕ) :
    (childIdsList (ms.take j)).Nodup := by
  have hsplit : childIdsList ms = childIdsList (ms.take j) ++ childIdsList (ms.drop j) := by
    rw [← childIdsList_append, List.take_append_drop]
  rw [hsplit] at h
  exact h.of_append_left

lemma mem_childIdsList {l : List Merge} {x : ℕ} :
    x ∈ childIdsList l ↔
      ∃ k, ∃ h : k < l.length, x = (l.get ⟨k, h⟩).left ∨ x = (l.get ⟨k, h⟩).right := by
  induction l with
  | nil => simp [childIdsList]
  | cons m l ih =>
    show x ∈ m.left :: m.right :: childIdsList l ↔ _
    constructor
    · intro hx
      rcases List.mem_cons.mp hx with rfl | hx'
      · exact ⟨0, by simp, Or.inl rfl⟩
      · rcases List.mem_cons.mp hx' with rfl | hx''
        · exact ⟨0, by simp, Or.inr rfl⟩
        · obtain ⟨k, hk, hor⟩ := ih.mp hx''
          exact ⟨k + 1, by simpa using hk, hor⟩
    · rintro ⟨k, hk, hor⟩
      cases k with
      | zero =>
        rcases hor with rfl | rfl
        · exact List.mem_cons_self _ _
        · exact List.mem_cons_of_mem _ (List.mem_cons_self _ _)
      | succ k =>
        have hk' : k < l.length := by simpa using hk
        refine List.mem_cons_of_mem _ (List.mem_cons_of_mem _ (ih.mpr ⟨k, hk', ?_⟩))
        exact hor

lemma childIds_take_lt {N : ℕ} {ms : List Merge} (hV : ValidTree N ms) (j : ℕ) {x : ℕ}
    (hx : x ∈ childIdsList (ms.take j)) : ∃ k, k < j ∧ x < N + k := by
  obtain ⟨k, hk, hor⟩ := mem_childIdsList.mp hx
  have hk1 : k < j := by
    have := hk
    rw [List.length_take] at this
    omega
  have hk2 : k < ms.length := by
    have := hk
    rw [List.length_take] at this
    omega
  have hget : (ms.take j).get ⟨k, hk⟩ = ms.get ⟨k, hk2⟩ := (List.get_take ms hk2 hk1).symm
  obtain ⟨hL, hR, _⟩ := hV.2.1 k hk2
  refine ⟨k, hk1, ?_⟩
  rcases hor with rfl | rfl <;> rw [hget] <;> omega

/-- The fresh identifier created at step `j` was never consumed earlier. -/
lemma fresh_not_child {N : ℕ} {ms : List Merge} (hV : ValidTree N ms) (j : ℕ) :
    N + j ∉ childIdsList (ms.take (j + 1)) := by
  intro hmem
  obtain ⟨k, hk, hlt⟩ := childIds_take_lt hV (j + 1) hmem
  omega

/-- The children of merge `j` are alive just before step `j`. -/
lemma child_fresh {N : ℕ} {ms : List Merge} (hV : ValidTree N ms) {j : ℕ}
    (hj : j < ms.length) :
    (ms.get ⟨j, hj⟩).left ∉ childIdsList (ms.take j) ∧
    (ms.get ⟨j, hj⟩).right ∉ childIdsList (ms.take j) := by
  have hnd : (childIdsList (ms.take (j + 1))).Nodup := childIdsList_nodup_take hV.2.2 (j + 1)
  rw [childIdsList_take_succ hj, List.nodup_append] at hnd
  obtain ⟨_, _, hdisj⟩ := hnd
  constructor <;> intro hmem
  · exact hdisj hmem (List.mem_cons_self _ _)
  · exact hdisj hmem (List.mem_cons_of_mem _ (List.mem_cons_self _ _))

/-- After `j` applied merges, an alive identifier's leaf set is exactly the
set of entities currently mapped to it. -/
lemma rep_of_active {N : ℕ} {ms : List Merge} {T : ℚ} (hV : ValidTree N ms) :
    ∀ j, j ≤ cutIdx ms T → ∀ i, ActiveAt N ms j i →
      ∀ e ∈ leafSet N ms i, repAt N ms T j e = i := by
  intro j
  induction j with
  | zero =>
    intro _ i hact e he
    have hiN : i < N := by
      have := hact.1
      omega
    rw [leafSet_leaf N ms hiN] at he
    rw [List.mem_singleton.mp he]
    rfl
  | succ j ih =>
    intro hj i hact e he
    have hjc : j < cutIdx ms T := by omega
    obtain ⟨hjlen, hdist⟩ := cutIdx_applied hjc
    obtain ⟨hL, hR, hLR⟩ := hV.2.1 j hjlen
    have hfresh := child_fresh hV hjlen
    by_cases hij : i = N + j
    · subst hij
      have hls := leafSet_merge N ms hjlen hL hR
      rw [hls] at he
      rcases List.mem_append.mp he with he' | he'
      · have hrep := ih (by omega) (ms.get ⟨j, hjlen⟩).left ⟨hL, hfresh.1⟩ e he'
        rw [repAt_succ N ms T hjlen e, if_pos hdist, hrep, if_pos (Or.inl rfl)]
      · have hrep := ih (by omega) (ms.get ⟨j, hjlen⟩).right ⟨hR, hfresh.2⟩ e he'
        rw [repAt_succ N ms T hjlen e, if_pos hdist, hrep, if_pos (Or.inr rfl)]
    · have hact' : ActiveAt N ms j i := by
        refine ⟨?_, ?_⟩
        · have := hact.1
          omega
        · intro hmem
          refine hact.2 ?_
          rw [childIdsList_take_succ hjlen]
          exact List.mem_append.mpr (Or.inl hmem)
      have hiL : i ≠ (ms.get ⟨j, hjlen⟩).left := by
        intro hcon
        refine hact.2 ?_
        rw [childIdsList_take_succ hjlen, hcon]
        exact List.mem_append.mpr (Or.inr (List.mem_cons_self _ _))
      have hiR : i ≠ (ms.get ⟨j, hjlen⟩).right := by
        intro hcon
        refine hact.2 ?_
        rw [childIdsList_take_succ hjlen, hcon]
        exact List.mem_append.mpr (Or.inr (List.mem_cons_of_mem _ (List.mem_cons_self _ _)))
      have hrep := ih (by omega) i hact' e he
      rw [repAt_succ N ms T hjlen e, if_pos hdist, hrep,
        if_neg (not_or.mpr ⟨hiL, hiR⟩)]

/-- After `j` applied merges, every entity's identifier is alive and the
entity lies below it. -/
lemma rep_active_mem {N : ℕ} {ms : List Merge} {T : ℚ} (hV : ValidTree N ms) :
    ∀ j, j ≤ cutIdx ms T → ∀ e, e < N →
      ActiveAt N ms j (repAt N ms T j e) ∧ e ∈ leafSet N ms (repAt N ms T j e) := by
  intro j
  induction j with
  | zero =>
    intro _ e he
    have h0 : repAt N ms T 0 e = e := rfl
    rw [h0]
    refine ⟨⟨by omega, by simp [childIdsList]⟩, ?_⟩
    rw [leafSet_leaf N ms he]
    exact List.mem_singleton.mpr rfl
  | succ j ih =>
    intro hj e he
    have hjc : j < cutIdx ms T := by omega
    obtain ⟨hjlen, hdist⟩ := cutIdx_applied hjc
    obtain ⟨hL, hR, hLR⟩ := hV.2.1 j hjlen
    obtain ⟨hact, hmem⟩ := ih (by omega) e he
    rw [repAt_succ N ms T hjlen e, if_pos hdist]
    by_cases hr : repAt N ms T j e = (ms.get ⟨j, hjlen⟩).left ∨
        repAt N ms T j e = (ms.get ⟨j, hjlen⟩).right
    · rw [if_pos hr]
      refine ⟨⟨by omega, fresh_not_child hV j⟩, ?_⟩
      rw [leafSet_merge N ms hjlen hL hR]
      rcases hr with hr | hr
      · exact List.mem_append.mpr (Or.inl (hr ▸ hmem))
      · exact List.mem_append.mpr (Or.inr (hr ▸ hmem))
    · rw [if_neg hr]
      push_neg at hr
      refine ⟨⟨by have := hact.1; omega, ?_⟩, hmem⟩
      intro hmem'
      rw [childIdsList_take_succ hjlen] at hmem'
      rcases List.mem_append.mp hmem' with h | h
      · exact hact.2 h
      · rcases List.mem_cons.mp h with h' | h'
        · exact hr.1 h'
        · exact hr.2 (List.mem_singleton.mp h')

lemma repAt_congr {N : ℕ} {ms : List Merge} {T : ℚ} {j : ℕ} {e e' : ℕ} :
    ∀ j', j ≤ j' → j' ≤ ms.length →
      repAt N ms T j e = repAt N ms T j e' → repAt N ms T j' e = repAt N ms T j' e' := by
  intro j'
  induction j' with
  | zero =>
    intro hj _ h
    have : j = 0 := by omega
    rw [← this]
    exact h
  | succ j' ih =>
    intro hj hlen h
    rcases eq_or_lt_of_le hj with heq | hlt
    · rw [← heq]
      exact h
    · have hj'len : j' < ms.length := by omega
      have hprev := ih (by omega) (by omega) h
      rw [repAt_succ N ms T hj'len e, repAt_succ N ms T hj'len e', hprev]

lemma rep_eq_of_connstep {N : ℕ} {ms : List Merge} {T : ℚ} (hV : ValidTree N ms)
    {j e e' : ℕ} (hj : j ≤ cutIdx ms T)
    (hc : ConnStepUpto N ms T j e e') : repAt N ms T j e = repAt N ms T j e' := by
  obtain ⟨k, hklen, hkj, hdist, hor⟩ := hc
  obtain ⟨hL, hR, _⟩ := hV.2.1 k hklen
  have hfresh := child_fresh hV hklen
  have hkc : k < cutIdx ms T := by omega
  have hstep : ∀ x, (x ∈ leafSet N ms (ms.get ⟨k, hklen⟩).left ∨
      x ∈ leafSet N ms (ms.get ⟨k, hklen⟩).right) → repAt N ms T (k + 1) x = N + k := by
    intro x hx
    rcases hx with hx | hx
    · have hrep := @rep_of_active N ms T hV k (by omega) (ms.get ⟨k, hklen⟩).left
        ⟨hL, hfresh.1⟩ x hx
      rw [repAt_succ N ms T hklen x, if_pos hdist, hrep, if_pos (Or.inl rfl)]
    · have hrep := @rep_of_active N ms T hV k (by omega) (ms.get ⟨k, hklen⟩).right
        ⟨hR, hfresh.2⟩ x hx
      rw [repAt_succ N ms T hklen x, if_pos hdist, hrep, if_pos (Or.inr rfl)]
  have hcut_len : cutIdx ms T ≤ ms.length := cutIdx_le ms T
  have heq1 : repAt N ms T (k + 1) e = repAt N ms T (k + 1) e' := by
    rcases hor with ⟨h1, h2⟩ | ⟨h1, h2⟩
    · rw [hstep e (Or.inl h1), hstep e' (Or.inr h2)]
    · rw [hstep e (Or.inr h1), hstep e' (Or.inl h2)]
  exact repAt_congr j (by omega) (by omega) heq1

lemma rep_eq_of_connUpto {N : ℕ} {ms : List Merge} {T : ℚ} (hV : ValidTree N ms)
    {j : ℕ} (hj : j ≤ cutIdx ms T) {e e' : ℕ}
    (hc : Relation.EqvGen (ConnStepUpto N ms T j) e e') :
    repAt N ms T j e = repAt N ms T j e' := by
  induction hc with
  | rel a b h => exact rep_eq_of_connstep hV hj h
  | refl a => rfl
  | symm a b _ ih => exact ih.symm
  | trans a b c _ _ ih1 ih2 => exact ih1.trans ih2

lemma connUpto_mono {N : ℕ} {ms : List Merge} {T : ℚ} {j j' : ℕ} (hj : j ≤ j')
    {e e' : ℕ} (hc : Relation.EqvGen (ConnStepUpto N ms T j) e e') :
    Relation.EqvGen (ConnStepUpto N ms T j') e e' := by
  refine Relation.EqvGen.mono ?_ hc
  rintro a b ⟨k, hk, hkj, hrest⟩
  exact ⟨k, hk, by omega, hrest⟩

lemma connUpto_of_rep_eq {N : ℕ} {ms : List Merge} {T : ℚ} (hV : ValidTree N ms) :
    ∀ j, j ≤ cutIdx ms T → ∀ e e', e < N → e' < N →
      repAt N ms T j e = repAt N ms T j e' →
      Relation.EqvGen (ConnStepUpto N ms T j) e e' := by
  intro j
  induction j with
  | zero =>
    intro _ e e' _ _ h
    have : e = e' := h
    rw [this]
    exact Relation.EqvGen.refl e'
  | succ j ih =>
    intro hj e e' he he' heq
    have hjc : j < cutIdx ms T := by omega
    obtain ⟨hjlen, hdist⟩ := cutIdx_applied hjc
    obtain ⟨hactE, hmemE⟩ := @rep_active_mem N ms T hV j (by omega) e he
    obtain ⟨hactE', hmemE'⟩ := @rep_active_mem N ms T hV j (by omega) e' he'
    rw [repAt_succ N ms T hjlen e, repAt_succ N ms T hjlen e',
      if_pos hdist, if_pos hdist] at heq
    by_cases hr : repAt N ms T j e = (ms.get ⟨j, hjlen⟩).left ∨
        repAt N ms T j e = (ms.get ⟨j, hjlen⟩).right <;>
      by_cases hr' : repAt N ms T j e' = (ms.get ⟨j, hjlen⟩).left ∨
        repAt N ms T j e' = (ms.get ⟨j, hjlen⟩).right
    · -- both redirected: either the same child (recurse), or the two
      -- children of applied merge j (direct edge)
      rcases hr with h1 | h1 <;> rcases hr' with h2 | h2
      · exact connUpto_mono (by omega)
          (ih (by omega) e e' he he' (by rw [h1, h2]))
      · exact Relation.EqvGen.rel e e'
          ⟨j, hjlen, by omega, hdist, Or.inl ⟨h1 ▸ hmemE, h2 ▸ hmemE'⟩⟩
      · exact Relation.EqvGen.rel e e'
          ⟨j, hjlen, by omega, hdist, Or.inr ⟨h1 ▸ hmemE, h2 ▸ hmemE'⟩⟩
      · exact connUpto_mono (by omega)
          (ih (by omega) e e' he he' (by rw [h1, h2]))
    · rw [if_pos hr, if_neg hr'] at heq
      have := hactE'.1
      omega
    · rw [if_neg hr, if_pos hr'] at heq
      have := hactE.1
      omega
    · rw [if_neg hr, if_neg hr'] at heq
      exact connUpto_mono (by omega) (ih (by omega) e e' he he' heq)

lemma repAfter_eq_cut {N : ℕ} {ms : List Merge} {T : ℚ} (hsort : SortedDists ms) :
    repAfter N ms T = repAt N ms T (cutIdx ms T) := by
  rw [repAfter_eq]
  have key : ∀ d, cutIdx ms T + d ≤ ms.length →
      repAt N ms T (cutIdx ms T + d) = repAt N ms T (cutIdx ms T) := by
    intro d
    induction d with
    | zero => intro _; rfl
    | succ d ih =>
      intro hle
      have hlen : cutIdx ms T + d < ms.length := by omega
      funext e
      show repAt N ms T ((cutIdx ms T + d) + 1) e = _
      rw [repAt_succ N ms T hlen e,
        if_neg (cutIdx_not_applied hsort hlen (by omega)), ih (by omega)]
  have hc := cutIdx_le ms T
  have h2 : ms.length = cutIdx ms T + (ms.length - cutIdx ms T) := by omega
  rw [h2]
  exact key _ (by omega)

lemma connstep_iff_cut {N : ℕ} {ms : List Merge} {T : ℚ} (hsort : SortedDists ms)
    (e e' : ℕ) :
    ConnStepUpto N ms T ms.length e e' ↔ ConnStepUpto N ms T (cutIdx ms T) e e' := by
  constructor
  · rintro ⟨k, h, _, hdist, hor⟩
    refine ⟨k, h, ?_, hdist, hor⟩
    by_contra hcon
    push_neg at hcon
    exact cutIdx_not_applied hsort h hcon hdist
  · rintro ⟨k, h, _, hdist, hor⟩
    exact ⟨k, h, h, hdist, hor⟩

lemma mem_firstOccs_aux : ∀ (l acc : List ℕ) (x : ℕ),
    x ∈ List.foldl (fun acc r => if r ∈ acc then acc else acc ++ [r]) acc l ↔
      x ∈ acc ∨ x ∈ l := by
  intro l
  induction l with
  | nil => simp
  | cons r l ih =>
    intro acc x
    rw [List.foldl_cons, ih]
    by_cases hr : r ∈ acc
    · rw [if_pos hr]
      constructor
      · rintro (h | h)
        · exact Or.inl h
        · exact Or.inr (List.mem_cons_of_mem _ h)
      · rintro (h | h)
        · exact Or.inl h
        · rcases List.mem_cons.mp h with rfl | h'
          · exact Or.inl hr
          · exact Or.inr h'
    · rw [if_neg hr]
      constructor
      · rintro (h | h)
        · rcases List.mem_append.mp h with h' | h'
          · exact Or.inl h'
          · exact Or.inr (List.mem_cons.mpr (Or.inl (List.mem_singleton.mp h')))
        · exact Or.inr (List.mem_cons_of_mem _ h)
      · rintro (h | h)
        · exact Or.inl (List.mem_append.mpr (Or.inl h))
        · rcases List.mem_cons.mp h with rfl | h'
          · exact Or.inl (List.mem_append.mpr (Or.inr (List.mem_singleton.mpr rfl)))
          · exact Or.inr h'

lemma mem_firstOccs {l : List ℕ} {x : ℕ} : x ∈ firstOccs l ↔ x ∈ l := by
  unfold firstOccs
  rw [mem_firstOccs_aux]
  simp

lemma labelOf_eq {N : ℕ} {ms : List Merge} {T : ℚ} {e : ℕ} (he : e < N) :
    labelOf N ms T e =
      (firstOccs ((List.range N).map (repAfter N ms T))).indexOf (repAfter N ms T e) + 1 := by
  unfold labelOf fcluster
  rw [List.getD_eq_getD_get?, List.get?_map, List.get?_map, List.get?_range he]
  rfl

lemma label_iff_rep {N : ℕ} {ms : List Merge} {T : ℚ} {e e' : ℕ}
    (he : e < N) (he' : e' < N) :
    labelOf N ms T e = labelOf N ms T e' ↔ repAfter N ms T e = repAfter N ms T e' := by
  rw [labelOf_eq he, labelOf_eq he']
  constructor
  · intro h
    have hm1 : repAfter N ms T e ∈ firstOccs ((List.range N).map (repAfter N ms T)) :=
      mem_firstOccs.mpr (List.mem_map.mpr ⟨e, List.mem_range.mpr he, rfl⟩)
    have hm2 : repAfter N ms T e' ∈ firstOccs ((List.range N).map (repAfter N ms T)) :=
      mem_firstOccs.mpr (List.mem_map.mpr ⟨e', List.mem_range.mpr he', rfl⟩)
    exact (List.indexOf_inj hm1 hm2).mp (by omega)
  · intro h
    rw [h]

lemma eqvGen_of_empty {r : ℕ → ℕ → Prop} (hr : ∀ a b, ¬ r a b) {a b : ℕ}
    (h : Relation.EqvGen r a b) : a = b := by
  induction h with
  | rel a b hab => exact absurd hab (hr a b)
  | refl a => rfl
  | symm a b _ ih => exact ih.symm
  | trans a b c _ _ ih1 ih2 => exact ih1.trans ih2

lemma childIdsList_length (ms : List Merge) : (childIdsList ms).length = 2 * ms.length := by
  induction ms with
  | nil => rfl
  | cons m l ih =>
    show (m.left :: m.right :: childIdsList l).length = 2 * (l.length + 1)
    simp only [List.length_cons, ih]
    omega

/-- After all `N − 1` merges of a valid tree, exactly one identifier (the
root) is alive. -/
lemma active_unique {N : ℕ} {ms : List Merge} (hV : ValidTree N ms) (hN : 1 ≤ N)
    {i i' : ℕ} (h1 : ActiveAt N ms ms.length i) (h2 : ActiveAt N ms ms.length i') :
    i = i' := by
  have htake : ms.take ms.length = ms := List.take_length ms
  have hsub : (childIdsList ms).toFinset ⊆ Finset.range (N + ms.length) := by
    intro x hx
    rw [List.mem_toFinset] at hx
    obtain ⟨k, hk, hlt⟩ := childIds_take_lt hV ms.length (htake ▸ hx)
    exact Finset.mem_range.mpr (by omega)
  have hcardA : (Finset.range (N + ms.length) \ (childIdsList ms).toFinset).card = 1 := by
    rw [Finset.card_sdiff hsub, Finset.card_range,
      List.toFinset_card_of_nodup hV.2.2, childIdsList_length]
    have := hV.1
    omega
  have hmem : ∀ x, ActiveAt N ms ms.length x →
      x ∈ Finset.range (N + ms.length) \ (childIdsList ms).toFinset := by
    intro x hx
    refine Finset.mem_sdiff.mpr ⟨Finset.mem_range.mpr hx.1, ?_⟩
    rw [List.mem_toFinset]
    intro hc
    exact hx.2 (htake.symm ▸ hc)
  exact Finset.card_le_one.mp (le_of_eq hcardA) i (hmem i h1) i' (hmem i' h2)

/-- C1: for every valid MergeTree (as produced by linkage: `N − 1` merges,
non-decreasing distances) and every threshold `T`, flat extraction assigns
two entities the same cluster label exactly when they are transitively
connected through merges recorded at distance `≤ T`; a `T` below the first
(smallest) merge distance yields `N` singleton clusters (labels agree only
on equal entities), and a `T` at or above the last (root) merge distance
puts every entity in one cluster. -/
theorem C1_fcluster (N : ℕ) (ms : List Merge) (T : ℚ)
    (hV : ValidTree N ms) (hS : SortedDists ms) :
    (∀ e e', e < N → e' < N →
      (labelOf N ms T e = labelOf N ms T e' ↔ Conn N ms T e e')) ∧
    ((∃ m0, ms.head? = some m0 ∧ T < m0.dist) → ∀ e e', e < N → e' < N →
      (labelOf N ms T e = labelOf N ms T e' ↔ e = e')) ∧
    ((∃ mr, ms.getLast? = some mr ∧ mr.dist ≤ T) → ∀ e e', e < N → e' < N →
      labelOf N ms T e = labelOf N ms T e') := by
  have hmain : ∀ e e', e < N → e' < N →
      (labelOf N ms T e = labelOf N ms T e' ↔ Conn N ms T e e') := by
    intro e e' he he'
    rw [label_iff_rep he he', repAfter_eq_cut hS]
    constructor
    · intro h
      exact connUpto_mono (cutIdx_le ms T)
        (connUpto_of_rep_eq hV (cutIdx ms T) (le_refl _) e e' he he' h)
    · intro h
      refine rep_eq_of_connUpto hV (le_refl _) ?_
      exact Relation.EqvGen.mono (fun a b hab => (connstep_iff_cut hS a b).mp hab) h
  refine ⟨hmain, ?_, ?_⟩
  · rintro ⟨m0, hm0, hTm0⟩ e e' he he'
    rw [hmain e e' he he']
    have h0 : 0 < ms.length := by
      cases ms with
      | nil => simp at hm0
      | cons m tl => simp
    have hget0 : ms.get ⟨0, h0⟩ = m0 := by
      cases ms with
      | nil => simp at hm0
      | cons m tl => simpa using hm0
    have hnone : ∀ a b, ¬ ConnStepUpto N ms T ms.length a b := by
      rintro a b ⟨k, hk, _, hdist, _⟩
      have hle : m0.dist ≤ (ms.get ⟨k, hk⟩).dist := by
        rcases Nat.eq_zero_or_pos k with rfl | hkpos
        · rw [← hget0]
        · have hp := List.pairwise_iff_get.mp hS
            ⟨0, by rw [List.length_map]; exact h0⟩
            ⟨k, by rw [List.length_map]; exact hk⟩ hkpos
          simp only [List.get_map] at hp
          rw [← hget0]
          exact hp
      exact absurd hdist (not_le.mpr (lt_of_lt_of_le hTm0 hle))
    constructor
    · intro h
      exact eqvGen_of_empty hnone h
    · intro h
      rw [h]
      exact Relation.EqvGen.refl e'
  · rintro ⟨mr, hmr, hTmr⟩ e e' he he'
    have h0 : 0 < ms.length := by
      cases ms with
      | nil => simp at hmr
      | cons m tl => simp
    have hN : 1 ≤ N := by
      have := hV.1
      omega
    have hgetlast : ms.get? (ms.length - 1) = some mr := by
      rw [← List.getLast?_eq_get?]
      exact hmr
    have hlastlt : ms.length - 1 < ms.length := by omega
    have hgetlast' : ms.get ⟨ms.length - 1, hlastlt⟩ = mr := by
      have := List.get?_eq_get hlastlt
      rw [this] at hgetlast
      exact Option.some_inj.mp hgetlast
    have hcut : cutIdx ms T = ms.length := by
      rcases eq_or_lt_of_le (cutIdx_le ms T) with h | h
      · exact h
      · exfalso
        have hnot := cutIdx_not_applied hS h (le_refl _)
        refine hnot ?_
        have hle : (ms.get ⟨cutIdx ms T, h⟩).dist ≤ mr.dist := by
          rcases eq_or_lt_of_le (show cutIdx ms T ≤ ms.length - 1 by omega) with hh | hh
          · rw [← hgetlast']
            have : (⟨cutIdx ms T, h⟩ : Fin ms.length) = ⟨ms.length - 1, hlastlt⟩ :=
              Fin.ext hh
            rw [this]
          · have hp := List.pairwise_iff_get.mp hS
              ⟨cutIdx ms T, by rw [List.length_map]; exact h⟩
              ⟨ms.length - 1, by rw [List.length_map]; exact hlastlt⟩ hh
            simp only [List.get_map] at hp
            rw [← hgetlast']
            exact hp
        exact le_trans hle hTmr
    rw [label_iff_rep he he', repAfter_eq_cut hS, hcut]
    have h1 := (@rep_active_mem N ms T hV ms.length (by rw [hcut]) e he).1
    have h2 := (@rep_active_mem N ms T hV ms.length (by rw [hcut]) e' he').1
    exact active_unique hV hN h1 h2

/-- Concrete instance of `C1_fcluster`: two entities whose single merge is
at distance `1`; a threshold of `0` leaves them in distinct singleton
clusters. -/
theorem C1_fcluster_witness :
    labelOf 2 [⟨0, 1, 1, 2⟩] 0 0 = labelOf 2 [⟨0, 1, 1, 2⟩] 0 1 ↔ (0 : ℕ) = 1 :=
  (C1_fcluster 2 [⟨0, 1, 1, 2⟩] 0 (by unfold ValidTree; decide)
    (by unfold SortedDists; decide)).2.1
    ⟨⟨0, 1, 1, 2⟩, rfl, by norm_num⟩ 0 1 (by norm_num) (by norm_num)

/-! ## Pairwise distances and the full pipeline

Modelled from the spec: `pdist(features_normalized, metric='euclidean')`
followed by `linkage(·, 'ward')` and the threshold cut (§4.2, §6, §7).
Distances are the squared Euclidean distances between standardized rows;
per column this is `(x i d − x j d)² / σ_d²`, and a constant column
contributes `0` (its standardized values are all `0`). -/

/-- Squared Euclidean distance between standardized rows `i` and `j`. -/
def stdSqDist (N D : ℕ) (x : Fin N → Fin D → ℚ) (i j : Fin N) : ℚ :=
  ∑ d, if colVariance N D x d = 0 then 0 else (x i d - x j d) ^ 2 / colVariance N D x d

/-- The dissimilarity input handed to linkage (junk `0` outside `[0, N)`,
never read there). -/
def toDM (N D : ℕ) (x : Fin N → Fin D → ℚ) : ℕ → ℕ → ℚ :=
  fun i j =>
    if hi : i < N then
      if hj : j < N then stdSqDist N D x ⟨i, hi⟩ ⟨j, hj⟩ else 0
    else 0

/-- Modelled from the spec: pairwise distance computation fails with
`InsufficientDataError` when fewer than two entities are supplied (§4.2);
the error is surfaced to the caller and never retried. -/
def pdist (N D : ℕ) (x : Fin N → Fin D → ℚ) : Except CoreError (ℕ → ℕ → ℚ) :=
  if N < 2 then Except.error CoreError.insufficientData
  else Except.ok (toDM N D x)

/-- The clustering pipeline: standardization → pairwise distances → Ward
linkage → threshold cut; a distance-step error propagates unchanged. -/
def cluster_pipeline (N D : ℕ) (x : Fin N → Fin D → ℚ) (T : ℚ) :
    Except CoreError (List Merge × List ℕ) :=
  (pdist N D x).map fun dm => (linkage N dm, fcluster N (linkage N dm) T)

/-- C5: with fewer than two entities (in particular a single entity), the
pairwise-distance step fails with `InsufficientDataError`, and the whole
pipeline surfaces exactly that error to the caller (the model is a pure
function: no retry can occur). -/
theorem C5_insufficient_data (N D : ℕ) (x : Fin N → Fin D → ℚ) (T : ℚ) (h : N < 2) :
    pdist N D x = Except.error CoreError.insufficientData ∧
    cluster_pipeline N D x T = Except.error CoreError.insufficientData := by
  constructor
  · simp [pdist, h]
  · simp [cluster_pipeline, pdist, h, Except.map]

/-- Concrete instance of `C5_insufficient_data`: a single entity. -/
theorem C5_insufficient_data_witness :
    cluster_pipeline 1 1 (fun _ _ => 0) 0 = Except.error CoreError.insufficientData :=
  (C5_insufficient_data 1 1 (fun _ _ => 0) 0 (by norm_num)).2

/-- C8: the pipeline is a pure function of its `(FeatureMatrix, threshold)`
input — two invocations on identical inputs return identical MergeTree and
FlatClusterAssignment outputs, and identical failures: the model contains
no other input source (no randomness, no unordered iteration). -/
theorem C8_determinism (N D : ℕ) (x1 x2 : Fin N → Fin D → ℚ) (T1 T2 : ℚ)
    (hx : x1 = x2) (hT : T1 = T2) :
    cluster_pipeline N D x1 T1 = cluster_pipeline N D x2 T2 := by
  rw [hx, hT]

/-- Concrete instance of `C8_determinism`: two runs on the same 2×1 matrix
agree. -/
theorem C8_determinism_witness :
    cluster_pipeline 2 1 (fun i _ => if i = 0 then 0 else 2) 1 =
      cluster_pipeline 2 1 (fun i _ => if i = 0 then 0 else 2) 1 :=
  C8_determinism 2 1 _ _ 1 1 rfl rfl

/-! ## `_count_hierarchy_levels` from `src/Checkpoint2/clean_hierarchical_data.py`

```python
levels = 0
current_level = set([''])
while current_level:
    next_level = set()
    for parent in current_level:
        children = self.cleaned_org_data[self.cleaned_org_data['parents'] == parent]['labels']
        next_level.update(children)
    if next_level:
        levels += 1
    current_level = next_level
return levels
```

The table is a list of `(labels, parents)` rows.  The loop is embedded with
explicit fuel (the Python loop has none — termination is exactly what claim
C9 conditions on the acyclicity of the reachable parent relation). -/

/-- The children of `p`: labels of rows whose parent is `p`. -/
def childrenOf (rows : List (String × String)) (p : String) : Finset String :=
  ((rows.filter fun r => r.2 == p).map Prod.fst).toFinset

/-- One loop iteration: all children of the current level. -/
def nextLevel (rows : List (String × String)) (cur : Finset String) : Finset String :=
  cur.biUnion (childrenOf rows)

/-- The loop body of `_count_hierarchy_levels`, with fuel. -/
def count_hierarchy_levels_aux (rows : List (String × String)) :
    ℕ → Finset String → ℕ → Option ℕ
  | 0, cur, levels => if cur = ∅ then some levels else none
  | fuel + 1, cur, levels =>
    if cur = ∅ then some levels
    else
      count_hierarchy_levels_aux rows fuel (nextLevel rows cur)
        (if nextLevel rows cur = ∅ then levels else levels + 1)

/-- `_count_hierarchy_levels`, starting from the root level `{''}` with
`levels = 0`. -/
def count_hierarchy_levels (rows : List (String × String)) (fuel : ℕ) : Option ℕ :=
  count_hierarchy_levels_aux rows fuel {""} 0

/-- Breadth-first level `k` below the root. -/
def frontier (rows : List (String × String)) : ℕ → Finset String
  | 0 => {""}
  | k + 1 => nextLevel rows (frontier rows k)

/-- Number of non-empty breadth-first levels among levels `1 … k`. -/
def countUpto (rows : List (String × String)) (k : ℕ) : ℕ :=
  ((List.range k).filter fun j => decide (frontier rows (j + 1) ≠ ∅)).length

/-- A directed walk of `n` parent→child edges from `a` to `b`. -/
def Walk (rows : List (String × String)) (a : String) : ℕ → String → Prop
  | 0, b => a = b
  | n + 1, b => ∃ c, Walk rows a n c ∧ (b, c) ∈ rows

/-- Reachability from the root `''`. -/
def ReachableFromRoot (rows : List (String × String)) (x : String) : Prop :=
  ∃ n, Walk rows "" n x

/-- The parent relation restricted to nodes reachable from the root has no
cycle. -/
def AcyclicFromRoot (rows : List (String × String)) : Prop :=
  ∀ x, ReachableFromRoot rows x → ∀ n, ¬ Walk rows x (n + 1) x

/-- Vertex lists whose consecutive elements are child/parent pairs. -/
def Linked (rows : List (String × String)) : List String → Prop
  | [] => True
  | [_] => True
  | b :: c :: l => (b, c) ∈ rows ∧ Linked rows (c :: l)

lemma mem_childrenOf {rows : List (String × String)} {x p : String} :
    x ∈ childrenOf rows p ↔ (x, p) ∈ rows := by
  unfold childrenOf
  rw [List.mem_toFinset, List.mem_map]
  constructor
  · rintro ⟨r, hr, rfl⟩
    rw [List.mem_filter] at hr
    have : r.2 = p := by simpa using hr.2
    have hrr : r = (r.1, p) := by
      rw [← this]
    rw [← hrr]
    exact hr.1
  · intro h
    exact ⟨(x, p), List.mem_filter.mpr ⟨h, by simp⟩, rfl⟩

lemma frontier_walk {rows : List (String × String)} :
    ∀ k {x : String}, x ∈ frontier rows k → Walk rows "" k x := by
  intro k
  induction k with
  | zero =>
    intro x hx
    have : x = "" := by simpa [frontier] using hx
    exact this.symm
  | succ k ih =>
    intro x hx
    rw [frontier, nextLevel, Finset.mem_biUnion] at hx
    obtain ⟨p, hp, hxp⟩ := hx
    exact ⟨p, ih hp, mem_childrenOf.mp hxp⟩

lemma walk_to_linked {rows : List (String × String)} {a : String} :
    ∀ {n b}, Walk rows a n b →
      ∃ vs : List String, Linked rows vs ∧ vs.length = n + 1 ∧
        vs.head? = some b ∧ vs.getLast? = some a := by
  intro n
  induction n with
  | zero =>
    intro b h
    have : a = b := h
    exact ⟨[b], trivial, rfl, rfl, by rw [this]; rfl⟩
  | succ n ih =>
    intro b h
    obtain ⟨c, hw, hr⟩ := h
    obtain ⟨vs, hlink, hlen, hhead, hlast⟩ := ih hw
    cases vs with
    | nil => simp at hhead
    | cons v tail =>
      have hvc : v = c := by simpa using hhead
      subst hvc
      refine ⟨b :: v :: tail, ⟨hr, hlink⟩, by simpa using hlen, rfl, ?_⟩
      rw [← hlast]
      rfl

lemma linked_tail {rows : List (String × String)} {v : String} {l : List String}
    (h : Linked rows (v :: l)) : Linked rows l := by
  cases l with
  | nil => trivial
  | cons c l' => exact h.2

lemma linked_drop {rows : List (String × String)} :
    ∀ (i : ℕ) (vs : List String), Linked rows vs → Linked rows (vs.drop i) := by
  intro i
  induction i with
  | zero => exact fun vs h => h
  | succ i ih =>
    intro vs h
    cases vs with
    | nil => trivial
    | cons v l => exact ih l (linked_tail h)

lemma linked_walk {rows : List (String × String)} :
    ∀ (m : ℕ) (vs : List String) (hm : m < vs.length) (h0 : 0 < vs.length),
      Linked rows vs → Walk rows (vs.get ⟨m, hm⟩) m (vs.get ⟨0, h0⟩) := by
  intro m
  induction m with
  | zero =>
    intro vs hm h0 _
    show vs.get ⟨0, hm⟩ = vs.get ⟨0, h0⟩
    rfl
  | succ m ih =>
    intro vs hm h0 hlink
    cases vs with
    | nil => simp at hm
    | cons b tail =>
      cases tail with
      | nil => simp at hm
      | cons c l =>
        obtain ⟨hedge, hlink'⟩ := hlink
        have hm' : m < (c :: l).length := by simpa using hm
        have h0' : 0 < (c :: l).length := by simp
        have hw := ih (c :: l) hm' h0' hlink'
        exact ⟨c, hw, hedge⟩

lemma linked_mem_bound {rows : List (String × String)} :
    ∀ (vs : List String), Linked rows vs → ∀ v ∈ vs,
      v ∈ rows.map Prod.fst ∨ vs.getLast? = some v := by
  intro vs
  induction vs with
  | nil => intro _ v hv; cases hv
  | cons b tail ih =>
    intro hlink v hv
    cases tail with
    | nil =>
      rcases List.mem_singleton.mp hv with rfl
      exact Or.inr rfl
    | cons c l =>
      obtain ⟨hedge, hlink'⟩ := hlink
      rcases List.mem_cons.mp hv with rfl | hv'
      · exact Or.inl (List.mem_map.mpr ⟨(v, c), hedge, rfl⟩)
      · rcases ih hlink' v hv' with h | h
        · exact Or.inl h
        · right
          rw [← h]
          rfl

lemma linked_not_nodup {rows : List (String × String)} {vs : List String}
    (hlink : Linked rows vs) (hlast : vs.getLast? = some "")
    (hlen : rows.length + 1 < vs.length) : ¬ vs.Nodup := by
  intro hnd
  have hsub : vs.toFinset ⊆ insert "" (rows.map Prod.fst).toFinset := by
    intro v hv
    rw [List.mem_toFinset] at hv
    rcases linked_mem_bound vs hlink v hv with h | h
    · exact Finset.mem_insert_of_mem (List.mem_toFinset.mpr h)
    · have : v = "" := by
        rw [hlast] at h
        exact (Option.some_inj.mp h).symm
      rw [this]
      exact Finset.mem_insert_self _ _
  have h1 : vs.length = vs.toFinset.card := (List.toFinset_card_of_nodup hnd).symm
  have h2 : vs.toFinset.card ≤ (insert "" (rows.map Prod.fst).toFinset).card :=
    Finset.card_le_card hsub
  have h3 : (insert "" (rows.map Prod.fst).toFinset).card ≤
      (rows.map Prod.fst).toFinset.card + 1 := Finset.card_insert_le _ _
  have h4 : (rows.map Prod.fst).toFinset.card ≤ rows.length := by
    have := List.toFinset_card_le (rows.map Prod.fst)
    rw [List.length_map] at this
    exact this
  omega

lemma exists_dup_of_not_nodup {vs : List String} (h : ¬ vs.Nodup) :
    ∃ i j : Fin vs.length, i < j ∧ vs.get i = vs.get j := by
  rw [List.nodup_iff_injective_get] at h
  unfold Function.Injective at h
  push_neg at h
  obtain ⟨a, b, hab, hne⟩ := h
  rcases lt_or_gt_of_ne hne with hlt | hlt
  · exact ⟨a, b, hlt, hab⟩
  · exact ⟨b, a, hlt, hab.symm⟩

/-- With an acyclic reachable parent relation, every breadth-first level
beyond the table size is empty. -/
lemma frontier_empty_of_acyclic {rows : List (String × String)}
    (hacyc : AcyclicFromRoot rows) :
    ∀ k, rows.length < k → frontier rows k = ∅ := by
  intro k hk
  by_contra hne
  obtain ⟨x, hx⟩ := Finset.nonempty_iff_ne_empty.mpr hne
  have hw : Walk rows "" k x := frontier_walk k hx
  obtain ⟨vs, hlink, hlen, _, hlast⟩ := walk_to_linked hw
  have hnnd := linked_not_nodup hlink hlast (by omega)
  obtain ⟨fi, fj, hijf, heqf⟩ := exists_dup_of_not_nodup hnnd
  have hi : fi.1 < vs.length := fi.2
  have hj : fj.1 < vs.length := fj.2
  set i := fi.1 with hidef
  set j := fj.1 with hjdef
  have hij : i < j := hijf
  have heq : vs.get ⟨i, hi⟩ = vs.get ⟨j, hj⟩ := heqf
  have hlen1 : (vs.drop i).length = vs.length - i := List.length_drop i vs
  have hmji : j - i < (vs.drop i).length := by omega
  have h0 : 0 < (vs.drop i).length := by omega
  have hlinkd := linked_drop i vs hlink
  -- the duplicated vertex closes a cycle of positive length
  have hcyc := linked_walk (j - i) (vs.drop i) hmji h0 hlinkd
  have hg0 : (vs.drop i).get ⟨0, h0⟩ = vs.get ⟨i, hi⟩ := by
    rw [List.get_drop']
    apply congrArg
    apply Fin.ext
    simp
  have hgj : (vs.drop i).get ⟨j - i, hmji⟩ = vs.get ⟨j, hj⟩ := by
    rw [List.get_drop']
    apply congrArg
    apply Fin.ext
    simp
    omega
  rw [hg0, hgj, ← heq] at hcyc
  -- the duplicated vertex is reachable from the root
  have hml : (vs.drop i).length - 1 < (vs.drop i).length := by omega
  have hreach0 := linked_walk ((vs.drop i).length - 1) (vs.drop i) hml h0 hlinkd
  have hgl : (vs.drop i).get ⟨(vs.drop i).length - 1, hml⟩ = "" := by
    rw [List.get_drop']
    have hidx : i + ((vs.drop i).length - 1) = vs.length - 1 := by omega
    have hvl : vs.get? (vs.length - 1) = some "" := by
      rw [← List.getLast?_eq_get?]
      exact hlast
    have hlt : vs.length - 1 < vs.length := by omega
    rw [List.get?_eq_get hlt] at hvl
    have := Option.some_inj.mp hvl
    rw [show (⟨i + ((vs.drop i).length - 1), by omega⟩ : Fin vs.length)
      = ⟨vs.length - 1, hlt⟩ from Fin.ext hidx]
    exact this
  rw [hgl, hg0] at hreach0
  have hreach : ReachableFromRoot rows (vs.get ⟨i, hi⟩) := ⟨_, hreach0⟩
  have hpos : j - i = (j - i - 1) + 1 := by omega
  rw [hpos] at hcyc
  exact hacyc _ hreach _ hcyc

lemma frontier_empty_ge {rows : List (String × String)} {k : ℕ}
    (h : frontier rows k = ∅) : ∀ j, k ≤ j → frontier rows j = ∅ := by
  intro j hj
  induction j with
  | zero =>
    have : k = 0 := by omega
    rw [← this]
    exact h
  | succ j ih =>
    rcases eq_or_lt_of_le hj with heq | hlt
    · rw [← heq]
      exact h
    · have hj' := ih (by omega)
      rw [frontier, hj']
      simp [nextLevel]

lemma countUpto_succ (rows : List (String × String)) (k : ℕ) :
    countUpto rows (k + 1) =
      countUpto rows k + (if frontier rows (k + 1) = ∅ then 0 else 1) := by
  unfold countUpto
  rw [List.range_succ, List.filter_append, List.length_append]
  by_cases h : frontier rows (k + 1) = ∅ <;> simp [h]

lemma countUpto_stable (rows : List (String × String)) (k : ℕ)
    (hall : ∀ j, k ≤ j → frontier rows (j + 1) = ∅) :
    ∀ d, countUpto rows (k + d) = countUpto rows k := by
  intro d
  induction d with
  | zero => rfl
  | succ d ih =>
    rw [show k + (d + 1) = (k + d) + 1 from rfl, countUpto_succ,
      if_pos (hall (k + d) (by omega)), ih]
    omega

lemma aux_correct (rows : List (String × String)) :
    ∀ (fuel k : ℕ), frontier rows (k + fuel) = ∅ →
      count_hierarchy_levels_aux rows fuel (frontier rows k) (countUpto rows k)
        = some (countUpto rows (k + fuel)) := by
  intro fuel
  induction fuel with
  | zero =>
    intro k h
    have h' : frontier rows k = ∅ := h
    unfold count_hierarchy_levels_aux
    rw [if_pos h']
    rfl
  | succ fuel ih =>
    intro k h
    by_cases hk : frontier rows k = ∅
    · show (if frontier rows k = ∅ then some (countUpto rows k) else _) = _
      rw [if_pos hk]
      congr 1
      have hall : ∀ j, k ≤ j → frontier rows (j + 1) = ∅ := fun j hj =>
        frontier_empty_ge hk (j + 1) (by omega)
      exact (countUpto_stable rows k hall (fuel + 1)).symm
    · show (if frontier rows k = ∅ then some (countUpto rows k)
        else count_hierarchy_levels_aux rows fuel (nextLevel rows (frontier rows k))
          (if nextLevel rows (frontier rows k) = ∅ then countUpto rows k
            else countUpto rows k + 1)) = _
      rw [if_neg hk]
      have hnext : nextLevel rows (frontier rows k) = frontier rows (k + 1) := rfl
      have harg : (if frontier rows (k + 1) = ∅ then countUpto rows k
          else countUpto rows k + 1) = countUpto rows (k + 1) := by
        rw [countUpto_succ]
        by_cases hnn : frontier rows (k + 1) = ∅ <;> simp [hnn]
      rw [hnext, harg]
      have hshift : (k + 1) + fuel = k + (fuel + 1) := by omega
      have := ih (k + 1) (by rw [hshift]; exact h)
      rw [this, hshift]

/-- C9: when the parent relation reachable from the root `''` is acyclic,
`_count_hierarchy_levels` terminates (any fuel beyond the table size
suffices, and the Python loop needs at most that many iterations) and
returns the number of non-empty breadth-first levels below the root; all
levels beyond the table size are empty, so that count is the total one. -/
theorem C9_count_hierarchy_levels (rows : List (String × String))
    (hacyc : AcyclicFromRoot rows) :
    (∀ fuel, rows.length < fuel →
      count_hierarchy_levels rows fuel = some (countUpto rows (rows.length + 1))) ∧
    (∀ j, rows.length < j → frontier rows j = ∅) := by
  have hempty := frontier_empty_of_acyclic hacyc
  refine ⟨?_, hempty⟩
  intro fuel hfuel
  have h0 : frontier rows (0 + fuel) = ∅ := hempty _ (by omega)
  have := aux_correct rows fuel 0 h0
  have hstart : count_hierarchy_levels rows fuel
      = count_hierarchy_levels_aux rows fuel (frontier rows 0) (countUpto rows 0) := rfl
  rw [hstart, this]
  congr 1
  have hall : ∀ j, rows.length + 1 ≤ j → frontier rows (j + 1) = ∅ := fun j hj =>
    hempty _ (by omega)
  have hd : fuel = (rows.length + 1) + (fuel - (rows.length + 1)) := by omega
  rw [show (0 : ℕ) + fuel = fuel from by omega, hd]
  exact countUpto_stable rows (rows.length + 1) hall _

/-- A depth function that increases along every edge rules out cycles. -/
lemma acyclic_of_depth (rows : List (String × String)) (depth : String → ℕ)
    (hd : ∀ p ∈ rows, depth p.1 = depth p.2 + 1) : AcyclicFromRoot rows := by
  have hwalk : ∀ n x y, Walk rows x n y → depth y = depth x + n := by
    intro n
    induction n with
    | zero =>
      intro x y h
      have hxy : x = y := h
      rw [← hxy]
      omega
    | succ n ih =>
      intro x y h
      obtain ⟨c, hw, hr⟩ := h
      have h1 : depth y = depth c + 1 := hd (y, c) hr
      have h2 : depth c = depth x + n := ih x c hw
      omega
  intro x _ n hw
  have := hwalk (n + 1) x x hw
  omega

/-- Concrete instance of `C9_count_hierarchy_levels`: the two-row table
`Company ← Team` (with `Company` under the root) terminates with fuel 3. -/
theorem C9_count_hierarchy_levels_witness :
    count_hierarchy_levels [("Company", ""), ("Team", "Company")] 3
      = some (countUpto [("Company", ""), ("Team", "Company")] 3) := by
  have hacyc : AcyclicFromRoot [("Company", ""), ("Team", "Company")] := by
    refine acyclic_of_depth _
      (fun s => if s = "Team" then 2 else if s = "Company" then 1 else 0) ?_
    intro p hp
    rcases List.mem_cons.mp hp with rfl | hp'
    · decide
    · rcases List.mem_cons.mp hp' with rfl | hp''
      · decide
      · cases hp''
  exact (C9_count_hierarchy_levels [("Company", ""), ("Team", "Company")] hacyc).1 3
    (by norm_num)

end NetworkInfluence
